import Mathlib

/-!
# AVLTree.hpp: a shallow embedding and its verification

The C++ class `AVLTree<T>` is modelled at `T = int`.  A `Node<T>*` is either
`nullptr` or points to a record `key / leftChild / rightChild / height`, so a
pointer-linked tree is a value of the inductive type `Node` below.  A function
of the source that takes a slot `Node<T>* &` and rewrites it becomes a function
from the old content of the slot to the new one.

Two effects of the source are made explicit:

* exceptions: a mutating call returns the content of the slot when control
  leaves the call, together with the exception in flight (if any);
* dereferencing `nullptr` (undefined behaviour in C++) is the distinguished
  outcome `Error.nullDereference`; rotations and `balance` return `none` there.

Keys are only compared, never computed with, and heights are bounded by the
number of nodes, so both are unbounded `Int`.
-/

namespace AVLTree

/-- Content of a `Node<T>*`: `nullptr`, or the four fields of `struct Node`. -/
inductive Node : Type
  | nullptr : Node
  | mk (key : Int) (leftChild : Node) (rightChild : Node) (height : Int) : Node
  deriving DecidableEq

/-- What a call can end with instead of returning normally. -/
inductive Error : Type
  | invalidArgument
  | outOfRange
  | nullDereference
  deriving DecidableEq

/-- The calls a client can make on the container. -/
inductive Call : Type
  | insert (element : Int)
  | remove (element : Int)
  deriving DecidableEq

open Node

/-- Source `max`: `(a > b) ? a : b`. -/
def max (a b : Int) : Int := if a > b then a else b

/-- Source `nodeHeight`: the cached height, `-1` for `nullptr`. -/
def nodeHeight : Node → Int
  | nullptr => -1
  | mk _ _ _ h => h

/-- Source `preOrderWalk`, with the root it temporarily repoints as argument. -/
def preOrderWalk : Node → List Int
  | nullptr => []
  | mk k l r _ => [k] ++ preOrderWalk l ++ preOrderWalk r

/-- Source `inOrderWalk`. -/
def inOrderWalk : Node → List Int
  | nullptr => []
  | mk k l r _ => inOrderWalk l ++ [k] ++ inOrderWalk r

/-- Source `postOrderWalk`. -/
def postOrderWalk : Node → List Int
  | nullptr => []
  | mk k l r _ => postOrderWalk l ++ postOrderWalk r ++ [k]

/-- Source `find`: linear search through `postOrderWalk()`. -/
def find (root : Node) (element : Int) : Bool :=
  (postOrderWalk root).any (fun entries => entries == element)

/-- Source `getTreeHeight`: the root's cached height, or `-1`, cast to the
64-bit unsigned `std::size_t`. -/
def getTreeHeight (root : Node) : Nat :=
  match root with
  | mk _ _ _ h => (h % 2 ^ 64).toNat
  | nullptr => ((-1 : Int) % 2 ^ 64).toNat

/-- Loop body of source `getMin`; `T()` is `0` for `int`. -/
def minStep (lowestValue entries : Int) : Int :=
  if entries < lowestValue || lowestValue == 0 then entries else lowestValue

/-- Loop body of source `getMax`. -/
def maxStep (highestValue entries : Int) : Int :=
  if entries > highestValue || highestValue == 0 then entries else highestValue

/-- Source `getMin`. -/
def getMin (root : Node) : Except Error Int :=
  match root with
  | nullptr => .error Error.outOfRange
  | mk _ _ _ _ => .ok ((postOrderWalk root).foldl minStep 0)

/-- Source `getMax`. -/
def getMax (root : Node) : Except Error Int :=
  match root with
  | nullptr => .error Error.outOfRange
  | mk _ _ _ _ => .ok ((postOrderWalk root).foldl maxStep 0)

/-- Source `findMin`: `getMin` with the root repointed to `node`. -/
def findMin (node : Node) : Except Error Int := getMin node

/-- Source `findMax`. -/
def findMax (node : Node) : Except Error Int := getMax node

/-- Source `leftRotate`: promotes the left child.  The source casts one
argument of `max` to `std::size_t`; `max` takes `const int&`, so the value is
converted back to `int` and the cast changes nothing. -/
def leftRotate : Node → Option Node
  | mk k (mk lk ll lr _) r _ =>
    let parentHeight := max (nodeHeight lr) (nodeHeight r) + 1
    some (mk lk ll (mk k lr r parentHeight) (max (nodeHeight ll) parentHeight + 1))
  | _ => none

/-- Source `rightRotate`: promotes the right child.  The old root's height is
`max(nodeHeight(right), nodeHeight(left) + 1)`, as the source writes it. -/
def rightRotate : Node → Option Node
  | mk k l (mk rk rl rr _) _ =>
    let parentHeight := max (nodeHeight rl) (nodeHeight l + 1)
    some (mk rk (mk k l rl parentHeight) rr (max (nodeHeight rr) parentHeight + 1))
  | _ => none

/-- Source `doubleLeftRotate`. -/
def doubleLeftRotate : Node → Option Node
  | mk k l r h => (rightRotate l).bind fun l' => leftRotate (mk k l' r h)
  | nullptr => none

/-- Source `doubleRightRotate`. -/
def doubleRightRotate : Node → Option Node
  | mk k l r h => (leftRotate r).bind fun r' => rightRotate (mk k l r' h)
  | nullptr => none

/-- Rotation chosen by source `balance` (lines 268-283) on a non-null slot. -/
def rebalance : Node → Option Node
  | nullptr => none
  | mk k l r h =>
    if nodeHeight l - nodeHeight r > 1 then
      match l with
      | nullptr => none
      | mk _ ll lr _ =>
        if nodeHeight ll ≥ nodeHeight lr then leftRotate (mk k l r h)
        else doubleLeftRotate (mk k l r h)
    else if nodeHeight r - nodeHeight l > 1 then
      match r with
      | nullptr => none
      | mk _ rl rr _ =>
        if nodeHeight rr ≥ nodeHeight rl then rightRotate (mk k l r h)
        else doubleRightRotate (mk k l r h)
    else some (mk k l r h)

/-- Last statement of source `balance`: recompute the height of the slot. -/
def updateHeight : Node → Node
  | nullptr => nullptr
  | mk k l r _ => mk k l r (max (nodeHeight l) (nodeHeight r) + 1)

/-- Source `balance`. -/
def balance : Node → Option Node
  | nullptr => some nullptr
  | mk k l r h => (rebalance (mk k l r h)).map updateHeight

/-- The call `balance(ParentNode)` that ends a mutation: the new slot, or the
old one with a null dereference. -/
def balanceSlot (node : Node) : Node × Option Error :=
  match balance node with
  | some node' => (node', none)
  | none => (node, some Error.nullDereference)

/-- Source `this->find(element)` during a recursive descent: `outer` holds the
keys of the nodes of `this->root` that lie outside the current slot. -/
def findFrom (outer : List Int) (node : Node) (element : Int) : Bool :=
  outer.any (fun entries => entries == element) || find node element

/-- Source `recursiveInsert`.  When the recursive call throws, the call to
`balance` is skipped and the exception continues upwards. -/
def recursiveInsert (outer : List Int) (element : Int) : Node → Node × Option Error
  | nullptr =>
    if !findFrom outer nullptr element then
      balanceSlot (mk element nullptr nullptr 0)
    else (nullptr, some Error.invalidArgument)
  | mk k l r h =>
    if !findFrom outer (mk k l r h) element then
      if element < k then
        match recursiveInsert (outer ++ k :: postOrderWalk r) element l with
        | (l', none) => balanceSlot (mk k l' r h)
        | (l', some e) => (mk k l' r h, some e)
      else if element > k then
        match recursiveInsert (outer ++ k :: postOrderWalk l) element r with
        | (r', none) => balanceSlot (mk k l r' h)
        | (r', some e) => (mk k l r' h, some e)
      else balanceSlot (mk k l r h)
    else (mk k l r h, some Error.invalidArgument)

/-- Test `ParentNode->leftChild && ParentNode->rightChild`. -/
def hasBothChildren : Node → Bool
  | mk _ (mk _ _ _ _) (mk _ _ _ _) _ => true
  | _ => false

/-- Slot after splicing out a node with at most one child. -/
def splice (l r : Node) : Node :=
  match l with
  | mk _ _ _ _ => l
  | nullptr => r

/-- Source `recursiveRemove`. -/
def recursiveRemove (outer : List Int) (element : Int) : Node → Node × Option Error
  | nullptr => (nullptr, some Error.outOfRange)
  | mk k l r h =>
    if findFrom outer (mk k l r h) element then
      if element < k then
        match recursiveRemove (outer ++ k :: postOrderWalk r) element l with
        | (l', none) => balanceSlot (mk k l' r h)
        | (l', some e) => (mk k l' r h, some e)
      else if element > k then
        match recursiveRemove (outer ++ k :: postOrderWalk l) element r with
        | (r', none) => balanceSlot (mk k l r' h)
        | (r', some e) => (mk k l r' h, some e)
      else if hasBothChildren (mk k l r h) then
        match findMin r with
        | .error e => (mk k l r h, some e)
        | .ok m =>
          match recursiveRemove (outer ++ m :: postOrderWalk l) m r with
          | (r', none) => balanceSlot (mk m l r' h)
          | (r', some e) => (mk m l r' h, some e)
      else balanceSlot (splice l r)
    else (mk k l r h, some Error.invalidArgument)

/-- Source `insert`. -/
def insert (root : Node) (element : Int) : Node × Option Error :=
  recursiveInsert [] element root

/-- Source `remove`. -/
def remove (root : Node) (element : Int) : Node × Option Error :=
  recursiveRemove [] element root

/-- One client call on the tree. -/
def call (root : Node) : Call → Node × Option Error
  | Call.insert element => insert root element
  | Call.remove element => remove root element

/-- Tree after a sequence of client calls; a call that throws leaves whatever
it left in the tree and the client goes on with the next call. -/
def run (root : Node) : List Call → Node
  | [] => root
  | c :: cs => run (call root c).1 cs

/-- Tree after a sequence of `insert` calls that all return normally, `none`
as soon as one of them throws. -/
def insertAll (root : Node) : List Int → Option Node
  | [] => some root
  | k :: ks =>
    match insert root k with
    | (root', none) => insertAll root' ks
    | (_, some _) => none

/-- Number of `insert` calls of the sequence that return normally. -/
def insertsDone (root : Node) : List Call → Nat
  | [] => 0
  | Call.insert k :: cs =>
    (if (insert root k).2 = none then 1 else 0) + insertsDone (insert root k).1 cs
  | Call.remove k :: cs => insertsDone (remove root k).1 cs

/-- Number of `remove` calls of the sequence that return normally. -/
def removesDone (root : Node) : List Call → Nat
  | [] => 0
  | Call.insert k :: cs => removesDone (insert root k).1 cs
  | Call.remove k :: cs =>
    (if (remove root k).2 = none then 1 else 0) + removesDone (remove root k).1 cs

/-! ## Specification vocabulary -/

/-- Number of nodes. -/
def size : Node → Nat
  | nullptr => 0
  | mk _ l r _ => size l + size r + 1

/-- Length of the longest downward path, `-1` for the empty subtree. -/
def realHeight : Node → Int
  | nullptr => -1
  | mk _ l r _ => Max.max (realHeight l) (realHeight r) + 1

/-- Invariant 1: keys on the left are smaller, keys on the right are larger,
at every node. -/
def BSTOrder : Node → Prop
  | nullptr => True
  | mk k l r _ =>
    (∀ x ∈ inOrderWalk l, x < k) ∧ (∀ x ∈ inOrderWalk r, k < x) ∧ BSTOrder l ∧ BSTOrder r

/-- Invariant 2, on the real heights of the two subtrees of every node. -/
def Balanced : Node → Prop
  | nullptr => True
  | mk _ l r _ =>
    realHeight l ≤ realHeight r + 1 ∧ realHeight r ≤ realHeight l + 1 ∧ Balanced l ∧ Balanced r

/-- Invariant 3: every cached height is one more than the larger cached height
of the children. -/
def HeightOK : Node → Prop
  | nullptr => True
  | mk _ l r h => h = Max.max (nodeHeight l) (nodeHeight r) + 1 ∧ HeightOK l ∧ HeightOK r

/-- Every cached height is at least `0`.  The source only ever stores `0`
(new leaf) or one more than a maximum of child heights in a `height` field. -/
def HeightsNonneg : Node → Prop
  | nullptr => True
  | mk _ l r h => 0 ≤ h ∧ HeightsNonneg l ∧ HeightsNonneg r

/-- Invariants 2 and 3 together, phrased on the cached heights. -/
def AVL : Node → Prop
  | nullptr => True
  | mk _ l r h =>
    h = Max.max (nodeHeight l) (nodeHeight r) + 1 ∧ nodeHeight l ≤ nodeHeight r + 1 ∧
      nodeHeight r ≤ nodeHeight l + 1 ∧ AVL l ∧ AVL r

/-- The two children of a node have different cached heights. -/
def ChildrenDiffer : Node → Prop
  | nullptr => True
  | mk _ l r _ => nodeHeight l ≠ nodeHeight r

/-- The height `h` a client reads after `n` inserts: what `getTreeHeight()`
returns, and `-1` when nothing was inserted. -/
def reportedHeight (n : Nat) (root : Node) : Int :=
  if n = 0 then -1 else (getTreeHeight root : Int)

/-- Decision procedure for `BSTOrder`. -/
def decBSTOrder : (t : Node) → Decidable (BSTOrder t)
  | nullptr => isTrue trivial
  | mk k l r _ =>
    have := decBSTOrder l
    have := decBSTOrder r
    inferInstanceAs (Decidable ((∀ x ∈ inOrderWalk l, x < k) ∧ (∀ x ∈ inOrderWalk r, k < x) ∧
      BSTOrder l ∧ BSTOrder r))

instance (t : Node) : Decidable (BSTOrder t) := decBSTOrder t

/-- Decision procedure for `Balanced`. -/
def decBalanced : (t : Node) → Decidable (Balanced t)
  | nullptr => isTrue trivial
  | mk _ l r _ =>
    have := decBalanced l
    have := decBalanced r
    inferInstanceAs (Decidable (realHeight l ≤ realHeight r + 1 ∧
      realHeight r ≤ realHeight l + 1 ∧ Balanced l ∧ Balanced r))

instance (t : Node) : Decidable (Balanced t) := decBalanced t

/-- Decision procedure for `HeightOK`. -/
def decHeightOK : (t : Node) → Decidable (HeightOK t)
  | nullptr => isTrue trivial
  | mk _ l r h =>
    have := decHeightOK l
    have := decHeightOK r
    inferInstanceAs (Decidable (h = Max.max (nodeHeight l) (nodeHeight r) + 1 ∧
      HeightOK l ∧ HeightOK r))

instance (t : Node) : Decidable (HeightOK t) := decHeightOK t

/-- Decision procedure for `HeightsNonneg`. -/
def decHeightsNonneg : (t : Node) → Decidable (HeightsNonneg t)
  | nullptr => isTrue trivial
  | mk _ l r h =>
    have := decHeightsNonneg l
    have := decHeightsNonneg r
    inferInstanceAs (Decidable (0 ≤ h ∧ HeightsNonneg l ∧ HeightsNonneg r))

instance (t : Node) : Decidable (HeightsNonneg t) := decHeightsNonneg t

/-! ## Elementary facts -/

theorem max_eq (a b : Int) : max a b = Max.max a b := by
  unfold max
  split <;> omega

theorem mem_postOrderWalk (t : Node) (x : Int) : x ∈ postOrderWalk t ↔ x ∈ inOrderWalk t := by
  induction t with
  | nullptr => simp [postOrderWalk, inOrderWalk]
  | mk k l r h ihl ihr =>
    simp only [postOrderWalk, inOrderWalk, List.mem_append, ihl, ihr, List.mem_singleton]
    tauto

theorem length_inOrderWalk (t : Node) : (inOrderWalk t).length = size t := by
  induction t with
  | nullptr => rfl
  | mk k l r h ihl ihr => simp [inOrderWalk, size, ihl, ihr]; omega

theorem find_eq_true (t : Node) (x : Int) : find t x = true ↔ x ∈ inOrderWalk t := by
  simp [find, ← mem_postOrderWalk]

theorem find_eq_false (t : Node) (x : Int) : find t x = false ↔ x ∉ inOrderWalk t := by
  rw [← find_eq_true]; simp

theorem findFrom_eq_true (o : List Int) (t : Node) (x : Int) :
    findFrom o t x = true ↔ x ∈ o ∨ x ∈ inOrderWalk t := by
  simp [findFrom, find_eq_true]

theorem findFrom_left (o : List Int) (k h : Int) (l r : Node) (x : Int) :
    findFrom (o ++ k :: postOrderWalk r) l x = findFrom o (mk k l r h) x := by
  rw [Bool.eq_iff_iff, findFrom_eq_true, findFrom_eq_true]
  simp only [List.mem_append, List.mem_cons, mem_postOrderWalk, inOrderWalk, List.mem_singleton,
    List.not_mem_nil, or_false]
  tauto

theorem findFrom_right (o : List Int) (k h : Int) (l r : Node) (x : Int) :
    findFrom (o ++ k :: postOrderWalk l) r x = findFrom o (mk k l r h) x := by
  rw [Bool.eq_iff_iff, findFrom_eq_true, findFrom_eq_true]
  simp only [List.mem_append, List.mem_cons, mem_postOrderWalk, inOrderWalk, List.mem_singleton,
    List.not_mem_nil, or_false]
  tauto

theorem findFrom_nil (t : Node) (x : Int) : findFrom [] t x = find t x := by
  simp [findFrom]

/-! ## Rotations keep the in-order sequence -/

theorem leftRotate_inOrderWalk {t t' : Node} (h : leftRotate t = some t') :
    inOrderWalk t' = inOrderWalk t := by
  unfold leftRotate at h
  split at h
  · cases h; simp [inOrderWalk]
  · cases h

theorem rightRotate_inOrderWalk {t t' : Node} (h : rightRotate t = some t') :
    inOrderWalk t' = inOrderWalk t := by
  unfold rightRotate at h
  split at h
  · cases h; simp [inOrderWalk]
  · cases h

theorem doubleLeftRotate_inOrderWalk {t t' : Node} (h : doubleLeftRotate t = some t') :
    inOrderWalk t' = inOrderWalk t := by
  cases t with
  | nullptr => cases h
  | mk k l r hh =>
    simp only [doubleLeftRotate, Option.bind_eq_some] at h
    obtain ⟨l', hl, hrot⟩ := h
    rw [leftRotate_inOrderWalk hrot]
    simp [inOrderWalk, rightRotate_inOrderWalk hl]

theorem doubleRightRotate_inOrderWalk {t t' : Node} (h : doubleRightRotate t = some t') :
    inOrderWalk t' = inOrderWalk t := by
  cases t with
  | nullptr => cases h
  | mk k l r hh =>
    simp only [doubleRightRotate, Option.bind_eq_some] at h
    obtain ⟨r', hr, hrot⟩ := h
    rw [rightRotate_inOrderWalk hrot]
    simp [inOrderWalk, leftRotate_inOrderWalk hr]

theorem rebalance_inOrderWalk {t t' : Node} (h : rebalance t = some t') :
    inOrderWalk t' = inOrderWalk t := by
  unfold rebalance at h
  split at h
  · cases h
  · split_ifs at h
    · split at h
      · cases h
      · split_ifs at h
        · exact leftRotate_inOrderWalk h
        · exact doubleLeftRotate_inOrderWalk h
    · split at h
      · cases h
      · split_ifs at h
        · exact rightRotate_inOrderWalk h
        · exact doubleRightRotate_inOrderWalk h
    · cases h; rfl

theorem updateHeight_inOrderWalk (t : Node) : inOrderWalk (updateHeight t) = inOrderWalk t := by
  cases t <;> rfl

theorem balance_inOrderWalk {t t' : Node} (h : balance t = some t') :
    inOrderWalk t' = inOrderWalk t := by
  cases t with
  | nullptr => cases h; rfl
  | mk k l r hh =>
    simp only [balance, Option.map_eq_some'] at h
    obtain ⟨u, hu, rfl⟩ := h
    rw [updateHeight_inOrderWalk, rebalance_inOrderWalk hu]

theorem balanceSlot_ok {t t' : Node} : balanceSlot t = (t', none) ↔ balance t = some t' := by
  unfold balanceSlot
  split <;> simp_all

theorem balanceSlot_of_balance {t t' : Node} (h : balance t = some t') :
    balanceSlot t = (t', none) := balanceSlot_ok.mpr h

/-! ## Cached heights are never negative, so `balance` never reads through `nullptr` -/

@[simp] theorem nodeHeight_nullptr : nodeHeight nullptr = -1 := rfl

@[simp] theorem nodeHeight_mk (k h : Int) (l r : Node) : nodeHeight (mk k l r h) = h := rfl

theorem nodeHeight_ge_of_nonneg {t : Node} (h : HeightsNonneg t) : -1 ≤ nodeHeight t := by
  cases t with
  | nullptr => simp
  | mk k l r hh => have := h.1; simp only [nodeHeight_mk]; omega

theorem updateHeight_nonneg {t : Node} (h : HeightsNonneg t) : HeightsNonneg (updateHeight t) := by
  cases t with
  | nullptr => exact h
  | mk k l r hh =>
    have hl := nodeHeight_ge_of_nonneg h.2.1
    refine ⟨?_, h.2.1, h.2.2⟩
    rw [max_eq]; omega

theorem leftRotate_nonneg {k lk h lh : Int} {ll lr r : Node} (hll : HeightsNonneg ll)
    (hlr : HeightsNonneg lr) (hr : HeightsNonneg r) :
    ∃ t', leftRotate (mk k (mk lk ll lr lh) r h) = some t' ∧ HeightsNonneg t' := by
  have h1 := nodeHeight_ge_of_nonneg hll
  have h2 := nodeHeight_ge_of_nonneg hlr
  have h3 := nodeHeight_ge_of_nonneg hr
  refine ⟨_, rfl, ?_, hll, ?_, hlr, hr⟩
  · simp only [max_eq]; omega
  · simp only [max_eq]; omega

theorem rightRotate_nonneg {k rk h rh : Int} {l rl rr : Node} (hl : HeightsNonneg l)
    (hrl : HeightsNonneg rl) (hrr : HeightsNonneg rr) :
    ∃ t', rightRotate (mk k l (mk rk rl rr rh) h) = some t' ∧ HeightsNonneg t' := by
  have h1 := nodeHeight_ge_of_nonneg hl
  have h2 := nodeHeight_ge_of_nonneg hrl
  have h3 := nodeHeight_ge_of_nonneg hrr
  refine ⟨_, rfl, ?_, ⟨?_, hl, hrl⟩, hrr⟩
  · simp only [max_eq]; omega
  · simp only [max_eq]; omega

theorem rebalance_nonneg {k h : Int} {l r : Node} (hl : HeightsNonneg l) (hr : HeightsNonneg r)
    (hh : 0 ≤ h) : ∃ t', rebalance (mk k l r h) = some t' ∧ HeightsNonneg t' := by
  have h1 := nodeHeight_ge_of_nonneg hl
  have h2 := nodeHeight_ge_of_nonneg hr
  simp only [rebalance]
  split_ifs with c1 c2
  · cases l with
    | nullptr => simp only [nodeHeight_nullptr, nodeHeight_mk] at c1; omega
    | mk lk ll lr lh =>
      simp only
      split_ifs with c3
      · exact leftRotate_nonneg hl.2.1 hl.2.2 hr
      · cases lr with
        | nullptr =>
          have := nodeHeight_ge_of_nonneg hl.2.1
          simp only [nodeHeight_nullptr, nodeHeight_mk] at c3; omega
        | mk xk xl xr xh =>
          obtain ⟨l', e1, n1⟩ := @rightRotate_nonneg lk xk lh xh ll xl xr
            hl.2.1 hl.2.2.2.1 hl.2.2.2.2
          have e1' := e1
          simp only [rightRotate] at e1'
          cases e1'
          simp only [doubleLeftRotate, e1, Option.some_bind]
          exact leftRotate_nonneg n1.2.1 n1.2.2 hr
  · cases r with
    | nullptr => simp only [nodeHeight_nullptr, nodeHeight_mk] at c2; omega
    | mk rk rl rr rh =>
      simp only
      split_ifs with c3
      · exact rightRotate_nonneg hl hr.2.1 hr.2.2
      · cases rl with
        | nullptr =>
          have := nodeHeight_ge_of_nonneg hr.2.2
          simp only [nodeHeight_nullptr, nodeHeight_mk] at c3; omega
        | mk xk xl xr xh =>
          obtain ⟨r', e1, n1⟩ := @leftRotate_nonneg rk xk rh xh xl xr rr
            hr.2.1.2.1 hr.2.1.2.2 hr.2.2
          have e1' := e1
          simp only [leftRotate] at e1'
          cases e1'
          simp only [doubleRightRotate, e1, Option.some_bind]
          exact rightRotate_nonneg hl n1.2.1 n1.2.2
  · exact ⟨_, rfl, hh, hl, hr⟩

theorem balance_nonneg {t : Node} (h : HeightsNonneg t) :
    ∃ t', balance t = some t' ∧ HeightsNonneg t' := by
  cases t with
  | nullptr => exact ⟨nullptr, rfl, trivial⟩
  | mk k l r hh =>
    obtain ⟨u, hu, hn⟩ := rebalance_nonneg (k := k) h.2.1 h.2.2 h.1
    exact ⟨updateHeight u, by simp [balance, hu], updateHeight_nonneg hn⟩

/-! ## `balance` keeps the number of nodes -/

theorem balance_size {t t' : Node} (h : balance t = some t') : size t' = size t := by
  rw [← length_inOrderWalk, ← length_inOrderWalk, balance_inOrderWalk h]

/-! ## Invariant 1 is sortedness of the in-order walk -/

theorem bstOrder_iff_sorted (t : Node) :
    BSTOrder t ↔ (inOrderWalk t).Sorted (fun a b => a < b) := by
  induction t with
  | nullptr => simp [BSTOrder, inOrderWalk]
  | mk k l r h ihl ihr =>
    simp only [BSTOrder, inOrderWalk, List.Sorted, List.pairwise_append, List.pairwise_cons,
      List.mem_append, List.mem_singleton, List.not_mem_nil, List.Pairwise.nil, ihl, ihr,
      List.append_assoc, List.singleton_append, List.mem_cons]
    constructor
    · rintro ⟨h1, h2, h3, h4⟩
      refine ⟨h3, ⟨h2, h4⟩, ?_⟩
      rintro a ha b (rfl | hb)
      · exact h1 a ha
      · exact lt_trans (h1 a ha) (h2 b hb)
    · rintro ⟨h3, ⟨h2, h4⟩, h5⟩
      exact ⟨fun x hx => h5 x hx k (Or.inl rfl), h2, h3, h4⟩

theorem bstOrder_of_inOrderWalk_eq {t t' : Node} (h : inOrderWalk t' = inOrderWalk t)
    (hb : BSTOrder t) : BSTOrder t' := by
  rw [bstOrder_iff_sorted] at hb ⊢
  rw [h]; exact hb

theorem bstOrder_nodup {t : Node} (hb : BSTOrder t) : (inOrderWalk t).Nodup := by
  rw [bstOrder_iff_sorted] at hb
  exact hb.nodup

/-! ## `recursiveInsert` -/

theorem mem_of_findFrom_false {o : List Int} {t : Node} {e : Int}
    (h : findFrom o t e = false) : e ∉ inOrderWalk t := by
  intro hm
  have := (findFrom_eq_true o t e).mpr (Or.inr hm)
  rw [h] at this; cases this

theorem recursiveInsert_ok {o : List Int} {e : Int} {t t' : Node}
    (h : recursiveInsert o e t = (t', none)) :
    (inOrderWalk t').Perm (e :: inOrderWalk t) ∧ (BSTOrder t → BSTOrder t') := by
  induction t generalizing o t' with
  | nullptr =>
    simp only [recursiveInsert] at h
    split_ifs at h
    · rw [balanceSlot_ok] at h
      have hw := balance_inOrderWalk h
      refine ⟨by rw [hw]; simp [inOrderWalk], fun _ => bstOrder_of_inOrderWalk_eq hw ?_⟩
      simp [BSTOrder, inOrderWalk]
    · cases h
  | mk k l r hh ihl ihr =>
    simp only [recursiveInsert] at h
    split_ifs at h with c1 c2 c3
    · split at h
      · rename_i l' hrec
        rw [balanceSlot_ok] at h
        have hw := balance_inOrderWalk h
        obtain ⟨hp, hb⟩ := ihl hrec
        refine ⟨?_, fun hbst => bstOrder_of_inOrderWalk_eq hw ?_⟩
        · rw [hw]
          simp only [inOrderWalk, List.append_assoc]
          exact (hp.append_right _).trans (by simp)
        · refine ⟨fun x hx => ?_, hbst.2.1, hb hbst.2.2.1, hbst.2.2.2⟩
          rcases List.mem_cons.mp (hp.mem_iff.mp hx) with rfl | hx'
          · exact c2
          · exact hbst.1 x hx'
      · cases h
    · split at h
      · rename_i r' hrec
        rw [balanceSlot_ok] at h
        have hw := balance_inOrderWalk h
        obtain ⟨hp, hb⟩ := ihr hrec
        refine ⟨?_, fun hbst => bstOrder_of_inOrderWalk_eq hw ?_⟩
        · rw [hw]
          have hq : (inOrderWalk l ++ [k] ++ inOrderWalk r').Perm
              (e :: (inOrderWalk l ++ [k] ++ inOrderWalk r)) :=
            (hp.append_left _).trans List.perm_middle
          simpa [inOrderWalk] using hq
        · refine ⟨hbst.1, fun x hx => ?_, hbst.2.2.1, hb hbst.2.2.2⟩
          rcases List.mem_cons.mp (hp.mem_iff.mp hx) with rfl | hx'
          · exact c3
          · exact hbst.2.1 x hx'
      · cases h
    · exfalso
      have hk : e = k := by omega
      have hf : findFrom o (mk k l r hh) e = false := by simpa using c1
      exact mem_of_findFrom_false hf (by simp [inOrderWalk, hk])
    · cases h

theorem recursiveInsert_nonneg {o : List Int} {e : Int} {t : Node}
    (hf : findFrom o t e = false) (hn : HeightsNonneg t) :
    ∃ t', recursiveInsert o e t = (t', none) ∧ HeightsNonneg t' := by
  induction t generalizing o with
  | nullptr =>
    obtain ⟨t', hb, hn'⟩ := balance_nonneg (t := mk e nullptr nullptr 0)
      ⟨le_refl 0, trivial, trivial⟩
    exact ⟨t', by simp [recursiveInsert, hf, balanceSlot_of_balance hb], hn'⟩
  | mk k l r hh ihl ihr =>
    simp only [recursiveInsert, hf, Bool.not_false, if_true]
    split_ifs with c2 c3
    · obtain ⟨l', hrec, hl'⟩ := ihl (o := o ++ k :: postOrderWalk r)
        (by rw [findFrom_left (h := hh)]; exact hf) hn.2.1
      obtain ⟨t', hb, hn'⟩ := balance_nonneg (t := mk k l' r hh) ⟨hn.1, hl', hn.2.2⟩
      exact ⟨t', by rw [hrec]; exact balanceSlot_of_balance hb, hn'⟩
    · obtain ⟨r', hrec, hr'⟩ := ihr (o := o ++ k :: postOrderWalk l)
        (by rw [findFrom_right (h := hh)]; exact hf) hn.2.2
      obtain ⟨t', hb, hn'⟩ := balance_nonneg (t := mk k l r' hh) ⟨hn.1, hn.2.1, hr'⟩
      exact ⟨t', by rw [hrec]; exact balanceSlot_of_balance hb, hn'⟩
    · obtain ⟨t', hb, hn'⟩ := balance_nonneg hn
      exact ⟨t', balanceSlot_of_balance hb, hn'⟩

theorem recursiveInsert_found {o : List Int} {e : Int} {t : Node}
    (hf : findFrom o t e = true) :
    recursiveInsert o e t = (t, some Error.invalidArgument) := by
  cases t <;> simp [recursiveInsert, hf]

/-! ## `getMin` returns one of the stored keys -/

theorem foldl_minStep_mem (xs : List Int) (a : Int) :
    xs.foldl minStep a = a ∨ xs.foldl minStep a ∈ xs := by
  induction xs generalizing a with
  | nil => exact Or.inl rfl
  | cons x xs ih =>
    simp only [List.foldl_cons, List.mem_cons]
    rcases ih (minStep a x) with h | h
    · rw [h]
      unfold minStep
      split_ifs
      · exact Or.inr (Or.inl rfl)
      · exact Or.inl rfl
    · exact Or.inr (Or.inr h)

theorem minStep_zero (x : Int) : minStep 0 x = x := by
  simp [minStep]

theorem findMin_mem (k h : Int) (l r : Node) :
    ∃ m, findMin (mk k l r h) = .ok m ∧ m ∈ inOrderWalk (mk k l r h) := by
  refine ⟨_, rfl, ?_⟩
  rw [← mem_postOrderWalk]
  generalize hxs : postOrderWalk (mk k l r h) = xs
  cases xs with
  | nil => simp [postOrderWalk] at hxs
  | cons x xs =>
    simp only [List.foldl_cons, minStep_zero, List.mem_cons]
    rcases foldl_minStep_mem xs x with h1 | h1
    · exact Or.inl h1
    · exact Or.inr h1

/-! ## `recursiveRemove` -/

theorem splice_inOrderWalk {k h : Int} {l r : Node} (hc : hasBothChildren (mk k l r h) = false) :
    inOrderWalk (splice l r) = inOrderWalk l ++ inOrderWalk r := by
  cases l with
  | nullptr => simp [splice, inOrderWalk]
  | mk lk ll lr lh =>
    cases r with
    | nullptr => simp [splice, inOrderWalk]
    | mk rk rl rr rh => simp [hasBothChildren] at hc

theorem splice_nonneg {l r : Node} (hl : HeightsNonneg l) (hr : HeightsNonneg r) :
    HeightsNonneg (splice l r) := by
  cases l with
  | nullptr => exact hr
  | mk lk ll lr lh => exact hl

theorem recursiveRemove_not_found {o : List Int} {e k h : Int} {l r : Node}
    (hf : findFrom o (mk k l r h) e = false) :
    recursiveRemove o e (mk k l r h) = (mk k l r h, some Error.invalidArgument) := by
  simp [recursiveRemove, hf]

theorem recursiveRemove_bst {o : List Int} {e : Int} {t : Node} (hb : BSTOrder t)
    (hn : HeightsNonneg t) (hm : e ∈ inOrderWalk t) :
    ∃ t', recursiveRemove o e t = (t', none) ∧
      (inOrderWalk t).Perm (e :: inOrderWalk t') ∧ HeightsNonneg t' := by
  induction t generalizing o e with
  | nullptr => simp [inOrderWalk] at hm
  | mk k l r hh ihl ihr =>
    have hf : findFrom o (mk k l r hh) e = true := (findFrom_eq_true _ _ _).mpr (Or.inr hm)
    simp only [recursiveRemove, hf, if_true]
    simp only [inOrderWalk, List.mem_append, List.mem_singleton] at hm
    split_ifs with c1 c2 c3
    · have hml : e ∈ inOrderWalk l := by
        rcases hm with (h1 | h1) | h1
        · exact h1
        · omega
        · have := hb.2.1 e h1; omega
      obtain ⟨l', hrec, hp, hl'⟩ := ihl (o := o ++ k :: postOrderWalk r) hb.2.2.1 hn.2.1 hml
      obtain ⟨t', hbal, hn'⟩ := balance_nonneg (t := mk k l' r hh) ⟨hn.1, hl', hn.2.2⟩
      refine ⟨t', by rw [hrec]; exact balanceSlot_of_balance hbal, ?_, hn'⟩
      rw [balance_inOrderWalk hbal]
      have hq : (inOrderWalk l ++ [k] ++ inOrderWalk r).Perm
          (e :: (inOrderWalk l' ++ [k] ++ inOrderWalk r)) := by
        have := (hp.append_right ([k] ++ inOrderWalk r))
        simpa using this
      simpa [inOrderWalk] using hq
    · have hmr : e ∈ inOrderWalk r := by
        rcases hm with (h1 | h1) | h1
        · have := hb.1 e h1; omega
        · omega
        · exact h1
      obtain ⟨r', hrec, hp, hr'⟩ := ihr (o := o ++ k :: postOrderWalk l) hb.2.2.2 hn.2.2 hmr
      obtain ⟨t', hbal, hn'⟩ := balance_nonneg (t := mk k l r' hh) ⟨hn.1, hn.2.1, hr'⟩
      refine ⟨t', by rw [hrec]; exact balanceSlot_of_balance hbal, ?_, hn'⟩
      rw [balance_inOrderWalk hbal]
      have hq : (inOrderWalk l ++ [k] ++ inOrderWalk r).Perm
          (e :: (inOrderWalk l ++ [k] ++ inOrderWalk r')) :=
        (hp.append_left _).trans List.perm_middle
      simpa [inOrderWalk] using hq
    · have hek : e = k := by omega
      subst hek
      cases r with
      | nullptr => cases l <;> simp [hasBothChildren] at c3
      | mk rk rl rr rh =>
        obtain ⟨m, hfm, hmm⟩ := findMin_mem rk rh rl rr
        obtain ⟨r', hrec, hp, hr'⟩ := ihr (o := o ++ m :: postOrderWalk l) (e := m)
          hb.2.2.2 hn.2.2 hmm
        obtain ⟨t', hbal, hn'⟩ := balance_nonneg (t := mk m l r' hh) ⟨hn.1, hn.2.1, hr'⟩
        refine ⟨t', ?_, ?_, hn'⟩
        · simp only [hfm, hrec]
          exact balanceSlot_of_balance hbal
        · rw [balance_inOrderWalk hbal]
          have hq : (inOrderWalk l ++ [e] ++ inOrderWalk (mk rk rl rr rh)).Perm
              (e :: (inOrderWalk l ++ [m] ++ inOrderWalk r')) := by
            have h1 : (inOrderWalk l ++ [e] ++ inOrderWalk (mk rk rl rr rh)).Perm
                (e :: (inOrderWalk l ++ inOrderWalk (mk rk rl rr rh))) := by
              simp
            refine h1.trans (List.Perm.cons _ ?_)
            have h2 := hp.append_left (inOrderWalk l)
            refine h2.trans ?_
            simp
          simpa [inOrderWalk] using hq
    · have hek : e = k := by omega
      subst hek
      have hc : hasBothChildren (mk e l r hh) = false := by simpa using c3
      obtain ⟨t', hbal, hn'⟩ := balance_nonneg (splice_nonneg hn.2.1 hn.2.2)
      refine ⟨t', balanceSlot_of_balance hbal, ?_, hn'⟩
      rw [balance_inOrderWalk hbal, splice_inOrderWalk hc]
      simp [inOrderWalk]

/-! ## Node counts of `insert` and `remove`, whatever the order of the keys -/

theorem balanceSlot_nonneg {t t' : Node} {err : Option Error} (hn : HeightsNonneg t)
    (h : balanceSlot t = (t', err)) : err = none ∧ HeightsNonneg t' ∧ size t' = size t := by
  obtain ⟨u, hu, hnu⟩ := balance_nonneg hn
  rw [balanceSlot_of_balance hu] at h
  cases h
  exact ⟨rfl, hnu, balance_size hu⟩

theorem splice_size {k h : Int} {l r : Node} (hc : hasBothChildren (mk k l r h) = false) :
    size (splice l r) + 1 = size (mk k l r h) := by
  rw [← length_inOrderWalk, ← length_inOrderWalk, splice_inOrderWalk hc]
  simp only [inOrderWalk, List.length_append, List.length_singleton]
  omega

theorem recursiveRemove_size {o : List Int} {e : Int} {t t' : Node} {err : Option Error}
    (hn : HeightsNonneg t) (h : recursiveRemove o e t = (t', err)) :
    HeightsNonneg t' ∧ err ≠ some Error.nullDereference ∧
      (err = none → size t' + 1 = size t) ∧ (err ≠ none → size t' = size t) := by
  induction t generalizing o e t' err with
  | nullptr =>
    simp only [recursiveRemove] at h
    cases h
    simp [HeightsNonneg]
  | mk k l r hh ihl ihr =>
    simp only [recursiveRemove] at h
    split_ifs at h with c0 c1 c2 c3
    · split at h
      · rename_i l' hrec
        obtain ⟨hl', -, hs, -⟩ := ihl hn.2.1 hrec
        obtain ⟨rfl, hn', hsz⟩ := balanceSlot_nonneg (t := mk k l' r hh) ⟨hn.1, hl', hn.2.2⟩ h
        have := hs rfl
        refine ⟨hn', by simp, fun _ => ?_, fun hc => absurd rfl hc⟩
        rw [hsz]; simp only [size]; omega
      · rename_i l' e' hrec
        obtain ⟨hl', hne, -, hs⟩ := ihl hn.2.1 hrec
        cases h
        have := hs (by simp)
        refine ⟨⟨hn.1, hl', hn.2.2⟩, hne, (fun hc => by cases hc), fun _ => ?_⟩
        simp only [size]; omega
    · split at h
      · rename_i r' hrec
        obtain ⟨hr', -, hs, -⟩ := ihr hn.2.2 hrec
        obtain ⟨rfl, hn', hsz⟩ := balanceSlot_nonneg (t := mk k l r' hh) ⟨hn.1, hn.2.1, hr'⟩ h
        have := hs rfl
        refine ⟨hn', by simp, fun _ => ?_, fun hc => absurd rfl hc⟩
        rw [hsz]; simp only [size]; omega
      · rename_i r' e' hrec
        obtain ⟨hr', hne, -, hs⟩ := ihr hn.2.2 hrec
        cases h
        have := hs (by simp)
        refine ⟨⟨hn.1, hn.2.1, hr'⟩, hne, (fun hc => by cases hc), fun _ => ?_⟩
        simp only [size]; omega
    · cases r with
      | nullptr => cases l <;> simp [hasBothChildren] at c3
      | mk rk rl rr rh =>
        obtain ⟨m, hfm, -⟩ := findMin_mem rk rh rl rr
        rw [hfm] at h
        simp only at h
        split at h
        · rename_i r' hrec
          obtain ⟨hr', -, hs, -⟩ := ihr hn.2.2 hrec
          obtain ⟨rfl, hn', hsz⟩ := balanceSlot_nonneg (t := mk m l r' hh) ⟨hn.1, hn.2.1, hr'⟩ h
          have := hs rfl
          refine ⟨hn', by simp, fun _ => ?_, fun hc => absurd rfl hc⟩
          rw [hsz]; simp only [size] at this ⊢; omega
        · rename_i r' e' hrec
          obtain ⟨hr', hne, -, hs⟩ := ihr hn.2.2 hrec
          cases h
          have := hs (by simp)
          refine ⟨⟨hn.1, hn.2.1, hr'⟩, hne, (fun hc => by cases hc), fun _ => ?_⟩
          simp only [size] at this ⊢; omega
    · have hc : hasBothChildren (mk k l r hh) = false := by simpa using c3
      obtain ⟨rfl, hn', hsz⟩ := balanceSlot_nonneg (splice_nonneg hn.2.1 hn.2.2) h
      refine ⟨hn', by simp, fun _ => ?_, fun hc' => absurd rfl hc'⟩
      rw [hsz]; exact splice_size hc
    · cases h
      exact ⟨hn, by simp, (fun hc => by cases hc), fun _ => rfl⟩

theorem recursiveInsert_size {o : List Int} {e : Int} {t t' : Node} {err : Option Error}
    (hn : HeightsNonneg t) (h : recursiveInsert o e t = (t', err)) :
    HeightsNonneg t' ∧ err ≠ some Error.nullDereference ∧
      (err = none → size t' = size t + 1) ∧ (err ≠ none → t' = t) := by
  cases hf : findFrom o t e with
  | true =>
    rw [recursiveInsert_found hf] at h
    cases h
    exact ⟨hn, by simp, (fun hc => by cases hc), fun _ => rfl⟩
  | false =>
    obtain ⟨u, hu, hnu⟩ := recursiveInsert_nonneg hf hn
    have hp := (recursiveInsert_ok hu).1.length_eq
    rw [hu] at h
    cases h
    refine ⟨hnu, by simp, fun _ => ?_, fun hc => absurd rfl hc⟩
    simpa [length_inOrderWalk] using hp

/-! ## Invariants 2 and 3 on cached heights -/

theorem nodeHeight_eq_realHeight {t : Node} (h : HeightOK t) : nodeHeight t = realHeight t := by
  induction t with
  | nullptr => rfl
  | mk k l r hh ihl ihr =>
    simp only [nodeHeight_mk, realHeight, ← ihl h.2.1, ← ihr h.2.2]
    exact h.1

theorem avl_iff (t : Node) : AVL t ↔ Balanced t ∧ HeightOK t := by
  induction t with
  | nullptr => simp [AVL, Balanced, HeightOK]
  | mk k l r hh ihl ihr =>
    simp only [AVL, Balanced, HeightOK, ihl, ihr]
    constructor
    · rintro ⟨h1, h2, h3, ⟨h4, h5⟩, h6, h7⟩
      rw [← nodeHeight_eq_realHeight h5, ← nodeHeight_eq_realHeight h7]
      exact ⟨⟨h2, h3, h4, h6⟩, h1, h5, h7⟩
    · rintro ⟨⟨h2, h3, h4, h6⟩, h1, h5, h7⟩
      rw [← nodeHeight_eq_realHeight h5, ← nodeHeight_eq_realHeight h7] at h2 h3
      exact ⟨h1, h2, h3, ⟨h4, h5⟩, h6, h7⟩

theorem avl_nodeHeight_ge {t : Node} (h : AVL t) : -1 ≤ nodeHeight t := by
  induction t with
  | nullptr => simp
  | mk k l r hh ihl ihr =>
    have := ihl h.2.2.2.1
    have := h.1
    simp only [nodeHeight_mk]; omega

theorem balance_avl {k h : Int} {l r : Node} (hl : AVL l) (hr : AVL r)
    (h1 : nodeHeight l ≤ nodeHeight r + 2) (h2 : nodeHeight r ≤ nodeHeight l + 2)
    (hsl : nodeHeight l = nodeHeight r + 2 → ChildrenDiffer l)
    (hsr : nodeHeight r = nodeHeight l + 2 → ChildrenDiffer r) :
    ∃ t', balance (mk k l r h) = some t' ∧ AVL t' ∧
      ((nodeHeight l ≤ nodeHeight r + 1 ∧ nodeHeight r ≤ nodeHeight l + 1 ∧
          t' = mk k l r (Max.max (nodeHeight l) (nodeHeight r) + 1)) ∨
        ((nodeHeight l = nodeHeight r + 2 ∨ nodeHeight r = nodeHeight l + 2) ∧
          nodeHeight t' = Max.max (nodeHeight l) (nodeHeight r))) := by
  have gl := avl_nodeHeight_ge hl
  have gr := avl_nodeHeight_ge hr
  simp only [balance, rebalance]
  split_ifs with c1 c2
  · cases l with
    | nullptr => simp only [nodeHeight_nullptr] at c1; omega
    | mk lk ll lr lh =>
      obtain ⟨e1, b1, b2, all, alr⟩ := hl
      have gll := avl_nodeHeight_ge all
      have glr := avl_nodeHeight_ge alr
      simp only [nodeHeight_mk] at c1 h1 h2 hsl gl
      have hd : nodeHeight ll ≠ nodeHeight lr := hsl (by omega)
      simp only
      split_ifs with c3
      · simp only [leftRotate, Option.map_some', updateHeight, nodeHeight_mk, max_eq]
        refine ⟨_, rfl, ⟨?_, ?_, ?_, all, ⟨?_, ?_, ?_, alr, hr⟩⟩, Or.inr ⟨Or.inl ?_, ?_⟩⟩ <;>
          (try simp only [nodeHeight_mk]) <;> omega
      · cases lr with
        | nullptr => simp only [nodeHeight_nullptr] at c3; omega
        | mk xk xl xr xh =>
          obtain ⟨e2, b3, b4, axl, axr⟩ := alr
          have gxl := avl_nodeHeight_ge axl
          have gxr := avl_nodeHeight_ge axr
          simp only [nodeHeight_mk] at c3 e1 b1 b2 hd glr
          simp only [doubleLeftRotate, rightRotate, leftRotate, Option.some_bind,
            Option.map_some', updateHeight, nodeHeight_mk, max_eq]
          refine ⟨_, rfl, ⟨?_, ?_, ?_, ⟨?_, ?_, ?_, all, axl⟩, ⟨?_, ?_, ?_, axr, hr⟩⟩,
            Or.inr ⟨Or.inl ?_, ?_⟩⟩ <;> (try simp only [nodeHeight_mk]) <;> omega
  · cases r with
    | nullptr => simp only [nodeHeight_nullptr] at c2; omega
    | mk rk rl rr rh =>
      obtain ⟨e1, b1, b2, arl, arr⟩ := hr
      have grl := avl_nodeHeight_ge arl
      have grr := avl_nodeHeight_ge arr
      simp only [nodeHeight_mk] at c1 c2 h1 h2 hsr gr
      have hd : nodeHeight rl ≠ nodeHeight rr := hsr (by omega)
      simp only
      split_ifs with c3
      · simp only [rightRotate, Option.map_some', updateHeight, nodeHeight_mk, max_eq]
        refine ⟨_, rfl, ⟨?_, ?_, ?_, ⟨?_, ?_, ?_, hl, arl⟩, arr⟩, Or.inr ⟨Or.inr ?_, ?_⟩⟩ <;>
          (try simp only [nodeHeight_mk]) <;> omega
      · cases rl with
        | nullptr => simp only [nodeHeight_nullptr] at c3; omega
        | mk xk xl xr xh =>
          obtain ⟨e2, b3, b4, axl, axr⟩ := arl
          have gxl := avl_nodeHeight_ge axl
          have gxr := avl_nodeHeight_ge axr
          simp only [nodeHeight_mk] at c3 e1 b1 b2 hd grl
          simp only [doubleRightRotate, rightRotate, leftRotate, Option.some_bind,
            Option.map_some', updateHeight, nodeHeight_mk, max_eq]
          refine ⟨_, rfl, ⟨?_, ?_, ?_, ⟨?_, ?_, ?_, hl, axl⟩, ⟨?_, ?_, ?_, axr, arr⟩⟩,
            Or.inr ⟨Or.inr ?_, ?_⟩⟩ <;> (try simp only [nodeHeight_mk]) <;> omega
  · simp only [Option.map_some', updateHeight, max_eq]
    exact ⟨_, rfl, ⟨rfl, by omega, by omega, hl, hr⟩, Or.inl ⟨by omega, by omega, rfl⟩⟩

theorem ne_nullptr_of_nodeHeight {t : Node} (h : nodeHeight t ≠ -1) : t ≠ nullptr := by
  rintro rfl
  exact h rfl

theorem recursiveInsert_avl {o : List Int} {e : Int} {t : Node}
    (hf : findFrom o t e = false) (ha : AVL t) :
    ∃ t', recursiveInsert o e t = (t', none) ∧ AVL t' ∧
      (nodeHeight t' = nodeHeight t ∨
        (nodeHeight t' = nodeHeight t + 1 ∧ (t ≠ nullptr → ChildrenDiffer t'))) := by
  induction t generalizing o with
  | nullptr =>
    obtain ⟨t', hb, hav, hc⟩ := balance_avl (k := e) (h := 0) (l := nullptr) (r := nullptr)
      trivial trivial (by simp) (by simp) (by simp) (by simp)
    refine ⟨t', by simp [recursiveInsert, hf, balanceSlot_of_balance hb], hav, Or.inr ⟨?_, ?_⟩⟩
    · rcases hc with ⟨-, -, rfl⟩ | ⟨hc, -⟩
      · simp
      · simp at hc
    · intro hne; exact absurd rfl hne
  | mk k l r hh ihl ihr =>
    obtain ⟨e1, b1, b2, al, ar⟩ := ha
    have gl := avl_nodeHeight_ge al
    have gr := avl_nodeHeight_ge ar
    simp only [recursiveInsert, hf, Bool.not_false, if_true]
    split_ifs with c2 c3
    · obtain ⟨l', hrec, al', hg⟩ := ihl (o := o ++ k :: postOrderWalk r)
        (by rw [findFrom_left (h := hh)]; exact hf) al
      have hsl : nodeHeight l' = nodeHeight r + 2 → ChildrenDiffer l' := by
        intro hx
        rcases hg with hg | ⟨hg, hcd⟩
        · omega
        · exact hcd (ne_nullptr_of_nodeHeight (by omega))
      obtain ⟨t', hb, hav, hc⟩ := balance_avl (k := k) (h := hh) al' ar (by omega) (by omega)
        hsl (fun hx => by omega)
      refine ⟨t', by rw [hrec]; exact balanceSlot_of_balance hb, hav, ?_⟩
      simp only [nodeHeight_mk]
      rcases hc with ⟨-, -, rfl⟩ | ⟨hc, ht'⟩
      · simp only [nodeHeight_mk]
        by_cases hx : Max.max (nodeHeight l') (nodeHeight r) + 1 = hh
        · exact Or.inl hx
        · refine Or.inr ⟨by omega, fun _ => ?_⟩
          show nodeHeight l' ≠ nodeHeight r
          omega
      · exact Or.inl (by omega)
    · obtain ⟨r', hrec, ar', hg⟩ := ihr (o := o ++ k :: postOrderWalk l)
        (by rw [findFrom_right (h := hh)]; exact hf) ar
      have hsr : nodeHeight r' = nodeHeight l + 2 → ChildrenDiffer r' := by
        intro hx
        rcases hg with hg | ⟨hg, hcd⟩
        · omega
        · exact hcd (ne_nullptr_of_nodeHeight (by omega))
      obtain ⟨t', hb, hav, hc⟩ := balance_avl (k := k) (h := hh) al ar' (by omega) (by omega)
        (fun hx => by omega) hsr
      refine ⟨t', by rw [hrec]; exact balanceSlot_of_balance hb, hav, ?_⟩
      simp only [nodeHeight_mk]
      rcases hc with ⟨-, -, rfl⟩ | ⟨hc, ht'⟩
      · simp only [nodeHeight_mk]
        by_cases hx : Max.max (nodeHeight l) (nodeHeight r') + 1 = hh
        · exact Or.inl hx
        · refine Or.inr ⟨by omega, fun _ => ?_⟩
          show nodeHeight l ≠ nodeHeight r'
          omega
      · exact Or.inl (by omega)
    · exfalso
      have hk : e = k := by omega
      exact mem_of_findFrom_false hf (by simp [inOrderWalk, hk])

/-! ## Sequences of calls -/

theorem run_counts (cs : List Call) (root : Node) (hn : HeightsNonneg root) :
    HeightsNonneg (run root cs) ∧
      size (run root cs) + removesDone root cs = size root + insertsDone root cs := by
  induction cs generalizing root with
  | nil => exact ⟨hn, rfl⟩
  | cons c cs ih =>
    cases c with
    | insert k =>
      rcases hres : insert root k with ⟨t', err⟩
      obtain ⟨hn', -, h1, h2⟩ := recursiveInsert_size hn hres
      obtain ⟨ihn, ihs⟩ := ih t' hn'
      simp only [run, call, insertsDone, removesDone, hres]
      refine ⟨ihn, ?_⟩
      cases err with
      | none => have := h1 rfl; simp only [if_true]; omega
      | some e' =>
        have := h2 (by simp)
        subst this
        simp only [reduceCtorEq, if_false]; omega
    | remove k =>
      rcases hres : remove root k with ⟨t', err⟩
      obtain ⟨hn', -, h1, h2⟩ := recursiveRemove_size hn hres
      obtain ⟨ihn, ihs⟩ := ih t' hn'
      simp only [run, call, insertsDone, removesDone, hres]
      refine ⟨ihn, ?_⟩
      cases err with
      | none => have := h1 rfl; simp only [if_true]; omega
      | some e' =>
        have := h2 (by simp)
        simp only [reduceCtorEq, if_false]; omega

theorem insertAll_bst (ks : List Int) (root t : Node) (hb : BSTOrder root)
    (h : insertAll root ks = some t) :
    BSTOrder t ∧ (inOrderWalk t).Perm (ks ++ inOrderWalk root) := by
  induction ks generalizing root with
  | nil =>
    simp only [insertAll, Option.some.injEq] at h
    subst h
    exact ⟨hb, by simp⟩
  | cons k ks ih =>
    simp only [insertAll] at h
    split at h
    · rename_i root' hins
      obtain ⟨hp, hb'⟩ := recursiveInsert_ok hins
      obtain ⟨h1, h2⟩ := ih root' (hb' hb) h
      refine ⟨h1, h2.trans ?_⟩
      refine ((hp.append_left ks).trans ?_)
      simp
    · cases h

/-! ## The claims -/

/-- C1, evaluated on the code: after `insert 2, 1, 4, 3, 5` and `remove 1`
the single right rotation has stored height `0` in the node `2`, which has a
child, so invariant 3 is lost; `remove 5` then trusts that height, performs no
rotation, and leaves the root `4` with a left subtree of real height `1` and an
empty right subtree: invariant 2 is lost. -/
theorem remove_breaks_balance :
    run nullptr [.insert 2, .insert 1, .insert 4, .insert 3, .insert 5, .remove 1]
        = mk 4 (mk 2 nullptr (mk 3 nullptr nullptr 0) 0) (mk 5 nullptr nullptr 0) 1 ∧
      ¬ HeightOK (run nullptr [.insert 2, .insert 1, .insert 4, .insert 3, .insert 5, .remove 1]) ∧
      run nullptr [.insert 2, .insert 1, .insert 4, .insert 3, .insert 5, .remove 1, .remove 5]
        = mk 4 (mk 2 nullptr (mk 3 nullptr nullptr 0) 0) nullptr 1 ∧
      realHeight (mk 2 nullptr (mk 3 nullptr nullptr 0) 0) = 1 ∧
      realHeight nullptr = -1 ∧
      ¬ Balanced
        (run nullptr [.insert 2, .insert 1, .insert 4, .insert 3, .insert 5, .remove 1, .remove 5]) := by
  decide

/-- C2, evaluated on the code: the tree built by `insert -1, -2, 1, 0`
satisfies the three invariants and stores `-1`; `remove(-1)` returns normally,
but `findMin` on the right subtree `{0, 1}` answers `1` instead of `0`, so the
root becomes `1` with `0` in its right subtree and the in-order walk is
`[-2, 1, 0]`. -/
theorem remove_breaks_bstOrder :
    run nullptr [.insert (-1), .insert (-2), .insert 1, .insert 0]
        = mk (-1) (mk (-2) nullptr nullptr 0) (mk 1 (mk 0 nullptr nullptr 0) nullptr 1) 2 ∧
      BSTOrder (mk (-1) (mk (-2) nullptr nullptr 0) (mk 1 (mk 0 nullptr nullptr 0) nullptr 1) 2) ∧
      Balanced (mk (-1) (mk (-2) nullptr nullptr 0) (mk 1 (mk 0 nullptr nullptr 0) nullptr 1) 2) ∧
      HeightOK (mk (-1) (mk (-2) nullptr nullptr 0) (mk 1 (mk 0 nullptr nullptr 0) nullptr 1) 2) ∧
      find (mk (-1) (mk (-2) nullptr nullptr 0) (mk 1 (mk 0 nullptr nullptr 0) nullptr 1) 2) (-1)
        = true ∧
      findMin (mk 1 (mk 0 nullptr nullptr 0) nullptr 1) = .ok 1 ∧
      remove (mk (-1) (mk (-2) nullptr nullptr 0) (mk 1 (mk 0 nullptr nullptr 0) nullptr 1) 2) (-1)
        = (mk 1 (mk (-2) nullptr nullptr 0) (mk 0 nullptr nullptr 0) 1, none) ∧
      inOrderWalk (mk 1 (mk (-2) nullptr nullptr 0) (mk 0 nullptr nullptr 0) 1) = [-2, 1, 0] ∧
      ¬ BSTOrder (mk 1 (mk (-2) nullptr nullptr 0) (mk 0 nullptr nullptr 0) 1) :=
  ⟨by decide, by decide, by decide, by decide, by decide, rfl, by decide, by decide, by decide⟩

/-- C3: when every `insert` of a sequence of integer keys, applied in turn to
an initially empty tree, returns normally, `inOrderWalk()` of the resulting
tree is strictly ascending and consists of exactly the inserted keys. -/
theorem insertAll_inOrderWalk_sorted (ks : List Int) (t : Node)
    (h : insertAll nullptr ks = some t) :
    (inOrderWalk t).Sorted (fun a b => a < b) ∧ (inOrderWalk t).Perm ks := by
  obtain ⟨h1, h2⟩ := insertAll_bst ks nullptr t trivial h
  exact ⟨(bstOrder_iff_sorted t).mp h1, by simpa [inOrderWalk] using h2⟩

/-- Witness for C3, on the spec's scenario `5, 3, 8, 1, 4, 7, 9`. -/
theorem insertAll_inOrderWalk_sorted_witness :
    insertAll nullptr [5, 3, 8, 1, 4, 7, 9]
        = some (mk 5 (mk 3 (mk 1 nullptr nullptr 0) (mk 4 nullptr nullptr 0) 1)
            (mk 8 (mk 7 nullptr nullptr 0) (mk 9 nullptr nullptr 0) 1) 2) ∧
      (inOrderWalk (mk 5 (mk 3 (mk 1 nullptr nullptr 0) (mk 4 nullptr nullptr 0) 1)
            (mk 8 (mk 7 nullptr nullptr 0) (mk 9 nullptr nullptr 0) 1) 2)).Sorted
          (fun a b => a < b) ∧
      (inOrderWalk (mk 5 (mk 3 (mk 1 nullptr nullptr 0) (mk 4 nullptr nullptr 0) 1)
            (mk 8 (mk 7 nullptr nullptr 0) (mk 9 nullptr nullptr 0) 1) 2)).Perm
          [5, 3, 8, 1, 4, 7, 9] :=
  ⟨by decide, insertAll_inOrderWalk_sorted [5, 3, 8, 1, 4, 7, 9] _ (by decide)⟩

/-- C4: on a tree that satisfies BST order, AVL balance and height correctness,
`insert(k)` of a key that is not stored returns normally and the new tree again
satisfies AVL balance and height correctness at every node (and BST order). -/
theorem insert_preserves_invariants (t : Node) (k : Int) (hb : BSTOrder t) (ha : Balanced t)
    (hh : HeightOK t) (hk : find t k = false) :
    (insert t k).2 = none ∧ Balanced (insert t k).1 ∧ HeightOK (insert t k).1 ∧
      BSTOrder (insert t k).1 := by
  have hf : findFrom [] t k = false := by rw [findFrom_nil]; exact hk
  obtain ⟨t', hins, hav, -⟩ := recursiveInsert_avl hf ((avl_iff t).mpr ⟨ha, hh⟩)
  have hb' := (recursiveInsert_ok hins).2 hb
  have h2 := (avl_iff t').mp hav
  have hi : insert t k = (t', none) := hins
  rw [hi]
  exact ⟨rfl, h2.1, h2.2, hb'⟩

/-- Witness for C4: inserting `3` below the right-heavy tree `1 → 2`, which
triggers the double right rotation. -/
theorem insert_preserves_invariants_witness :
    (insert (mk 1 nullptr (mk 4 nullptr nullptr 0) 1) 3).2 = none ∧
      Balanced (insert (mk 1 nullptr (mk 4 nullptr nullptr 0) 1) 3).1 ∧
      HeightOK (insert (mk 1 nullptr (mk 4 nullptr nullptr 0) 1) 3).1 ∧
      BSTOrder (insert (mk 1 nullptr (mk 4 nullptr nullptr 0) 1) 3).1 :=
  insert_preserves_invariants (mk 1 nullptr (mk 4 nullptr nullptr 0) 1) 3
    (by decide) (by decide) (by decide) (by decide)

/-- Every tree the class can hold has non-negative cached heights. -/
theorem run_heightsNonneg (cs : List Call) : HeightsNonneg (run nullptr cs) :=
  (run_counts cs nullptr trivial).1

/-- C5: on a tree in BST order (hence without duplicates), whose cached
heights are non-negative as in every tree the class builds, `remove(k)` of a
stored key returns normally; afterwards `find(k)` is false, the keys are the old
ones minus one occurrence of `k`, none is repeated, and so a key other than `k`
is found afterwards exactly when it was found before. -/
theorem remove_stored_key (t : Node) (k : Int) (hb : BSTOrder t) (hn : HeightsNonneg t)
    (hk : find t k = true) :
    (remove t k).2 = none ∧ find (remove t k).1 k = false ∧
      (inOrderWalk t).Perm (k :: inOrderWalk (remove t k).1) ∧
      (inOrderWalk (remove t k).1).Nodup ∧
      ∀ x, find (remove t k).1 x = true ↔ (x ≠ k ∧ find t x = true) := by
  obtain ⟨t', hrem, hp, -⟩ := @recursiveRemove_bst [] k t hb hn ((find_eq_true t k).mp hk)
  have hr : remove t k = (t', none) := hrem
  have hnd : (k :: inOrderWalk t').Nodup := hp.nodup_iff.mp (bstOrder_nodup hb)
  rw [hr]
  refine ⟨rfl, (find_eq_false t' k).mpr (List.nodup_cons.mp hnd).1, hp,
    (List.nodup_cons.mp hnd).2, fun x => ?_⟩
  rw [find_eq_true, find_eq_true, hp.mem_iff, List.mem_cons]
  constructor
  · intro hx
    refine ⟨?_, Or.inr hx⟩
    rintro rfl
    exact (List.nodup_cons.mp hnd).1 hx
  · rintro ⟨hne, rfl | hx⟩
    · exact absurd rfl hne
    · exact hx

/-- Witness for C5: removing the root `-1`, which has two children, from the
tree built by `insert -1, -2, 1, 0`. -/
theorem remove_stored_key_witness :
    (remove (mk (-1) (mk (-2) nullptr nullptr 0) (mk 1 (mk 0 nullptr nullptr 0) nullptr 1) 2)
        (-1)).2 = none ∧
      find (remove (mk (-1) (mk (-2) nullptr nullptr 0) (mk 1 (mk 0 nullptr nullptr 0) nullptr 1) 2)
        (-1)).1 (-1) = false ∧
      (inOrderWalk (mk (-1) (mk (-2) nullptr nullptr 0)
        (mk 1 (mk 0 nullptr nullptr 0) nullptr 1) 2)).Perm
        (-1 :: inOrderWalk (remove (mk (-1) (mk (-2) nullptr nullptr 0)
          (mk 1 (mk 0 nullptr nullptr 0) nullptr 1) 2) (-1)).1) ∧
      (inOrderWalk (remove (mk (-1) (mk (-2) nullptr nullptr 0)
          (mk 1 (mk 0 nullptr nullptr 0) nullptr 1) 2) (-1)).1).Nodup ∧
      ∀ x, find (remove (mk (-1) (mk (-2) nullptr nullptr 0)
          (mk 1 (mk 0 nullptr nullptr 0) nullptr 1) 2) (-1)).1 x = true ↔
        (x ≠ -1 ∧ find (mk (-1) (mk (-2) nullptr nullptr 0)
          (mk 1 (mk 0 nullptr nullptr 0) nullptr 1) 2) x = true) :=
  remove_stored_key (mk (-1) (mk (-2) nullptr nullptr 0) (mk 1 (mk 0 nullptr nullptr 0) nullptr 1) 2)
    (-1) (by decide) (by decide) (by decide)

/-- C6, evaluated on the code: after `insert -1, -2, 1, 0` and `remove -1` the
tree is `1` with children `-2` and `0`; `find(0)` is true, yet `remove(0)`
descends left of `1`, then right of `-2`, reaches an empty slot and throws
`std::out_of_range`; `0` is still stored afterwards. -/
theorem remove_found_key_throws :
    run nullptr [.insert (-1), .insert (-2), .insert 1, .insert 0, .remove (-1)]
        = mk 1 (mk (-2) nullptr nullptr 0) (mk 0 nullptr nullptr 0) 1 ∧
      find (mk 1 (mk (-2) nullptr nullptr 0) (mk 0 nullptr nullptr 0) 1) 0 = true ∧
      remove (mk 1 (mk (-2) nullptr nullptr 0) (mk 0 nullptr nullptr 0) 1) 0
        = (mk 1 (mk (-2) nullptr nullptr 0) (mk 0 nullptr nullptr 0) 1, some Error.outOfRange) ∧
      find (remove (mk 1 (mk (-2) nullptr nullptr 0) (mk 0 nullptr nullptr 0) 1) 0).1 0 = true := by
  decide

/-- C7: on a tree in BST order, whose cached heights are non-negative as in
every tree the class builds, `insert(k)` of a key for which `find(k)` is false
returns normally; afterwards `find(k)` is true and the stored keys are exactly
the old ones plus one occurrence of `k` (and the tree is still in BST order). -/
theorem insert_new_key (t : Node) (k : Int) (hb : BSTOrder t) (hn : HeightsNonneg t)
    (hk : find t k = false) :
    (insert t k).2 = none ∧ find (insert t k).1 k = true ∧
      (∀ x, find (insert t k).1 x = true ↔ (x = k ∨ find t x = true)) ∧
      (inOrderWalk (insert t k).1).Perm (k :: inOrderWalk t) ∧ BSTOrder (insert t k).1 := by
  have hf : findFrom [] t k = false := by rw [findFrom_nil]; exact hk
  obtain ⟨t', hins, -⟩ := recursiveInsert_nonneg hf hn
  obtain ⟨hp, hb'⟩ := recursiveInsert_ok hins
  have hi : insert t k = (t', none) := hins
  rw [hi]
  refine ⟨rfl, ?_, fun x => ?_, hp, hb' hb⟩
  · rw [find_eq_true, hp.mem_iff]; exact List.mem_cons_self _ _
  · rw [find_eq_true, find_eq_true, hp.mem_iff, List.mem_cons]

/-- Witness for C7: inserting `4` into the degenerate chain `1 → 2 → 3`, which
is in BST order but not balanced. -/
theorem insert_new_key_witness :
    (insert (mk 1 nullptr (mk 2 nullptr (mk 3 nullptr nullptr 0) 1) 2) 4).2 = none ∧
      find (insert (mk 1 nullptr (mk 2 nullptr (mk 3 nullptr nullptr 0) 1) 2) 4).1 4 = true ∧
      (∀ x, find (insert (mk 1 nullptr (mk 2 nullptr (mk 3 nullptr nullptr 0) 1) 2) 4).1 x = true ↔
        (x = 4 ∨ find (mk 1 nullptr (mk 2 nullptr (mk 3 nullptr nullptr 0) 1) 2) x = true)) ∧
      (inOrderWalk (insert (mk 1 nullptr (mk 2 nullptr (mk 3 nullptr nullptr 0) 1) 2) 4).1).Perm
        (4 :: inOrderWalk (mk 1 nullptr (mk 2 nullptr (mk 3 nullptr nullptr 0) 1) 2)) ∧
      BSTOrder (insert (mk 1 nullptr (mk 2 nullptr (mk 3 nullptr nullptr 0) 1) 2) 4).1 :=
  insert_new_key (mk 1 nullptr (mk 2 nullptr (mk 3 nullptr nullptr 0) 1) 2) 4 (by decide) (by decide) (by decide)

/-- C8: after any sequence of `insert` and `remove` calls on an initially
empty tree, the length of `inOrderWalk()` is the number of `insert` calls that
returned normally minus the number of `remove` calls that returned normally. -/
theorem inOrderWalk_length_run (cs : List Call) :
    ((inOrderWalk (run nullptr cs)).length : Int)
      = (insertsDone nullptr cs : Int) - (removesDone nullptr cs : Int) := by
  have h := (run_counts cs nullptr trivial).2
  rw [length_inOrderWalk]
  simp only [size] at h
  omega

/-- C9: `insert(k)` of a key that is already stored (`find(k)` is true) throws
`std::invalid_argument` and leaves the tree as it was: same shape, same keys,
same cached heights, hence the same three traversals. -/
theorem insert_stored_key (t : Node) (k : Int) (hk : find t k = true) :
    insert t k = (t, some Error.invalidArgument) ∧
      preOrderWalk (insert t k).1 = preOrderWalk t ∧
      inOrderWalk (insert t k).1 = inOrderWalk t ∧
      postOrderWalk (insert t k).1 = postOrderWalk t := by
  have hf : findFrom [] t k = true := by rw [findFrom_nil]; exact hk
  have hi : insert t k = (t, some Error.invalidArgument) := recursiveInsert_found hf
  rw [hi]
  exact ⟨rfl, rfl, rfl, rfl⟩

/-- Witness for C9: inserting `2` twice. -/
theorem insert_stored_key_witness :
    insert (mk 2 (mk 1 nullptr nullptr 0) nullptr 1) 2
        = (mk 2 (mk 1 nullptr nullptr 0) nullptr 1, some Error.invalidArgument) ∧
      preOrderWalk (insert (mk 2 (mk 1 nullptr nullptr 0) nullptr 1) 2).1
        = preOrderWalk (mk 2 (mk 1 nullptr nullptr 0) nullptr 1) ∧
      inOrderWalk (insert (mk 2 (mk 1 nullptr nullptr 0) nullptr 1) 2).1
        = inOrderWalk (mk 2 (mk 1 nullptr nullptr 0) nullptr 1) ∧
      postOrderWalk (insert (mk 2 (mk 1 nullptr nullptr 0) nullptr 1) 2).1
        = postOrderWalk (mk 2 (mk 1 nullptr nullptr 0) nullptr 1) :=
  insert_stored_key (mk 2 (mk 1 nullptr nullptr 0) nullptr 1) 2 (by decide)

/-- C10: on a non-empty tree, `remove(k)` of a key that is not stored
(`find(k)` is false) throws `std::invalid_argument` and leaves the tree as it
was: same shape, same keys, same cached heights. -/
theorem remove_missing_key (t : Node) (k : Int) (ht : t ≠ nullptr) (hk : find t k = false) :
    remove t k = (t, some Error.invalidArgument) := by
  cases t with
  | nullptr => exact absurd rfl ht
  | mk key l r h =>
    have hf : findFrom [] (mk key l r h) k = false := by rw [findFrom_nil]; exact hk
    exact recursiveRemove_not_found hf

/-- Witness for C10: removing `7` from the tree `2` with left child `1`. -/
theorem remove_missing_key_witness :
    remove (mk 2 (mk 1 nullptr nullptr 0) nullptr 1) 7
      = (mk 2 (mk 1 nullptr nullptr 0) nullptr 1, some Error.invalidArgument) :=
  remove_missing_key (mk 2 (mk 1 nullptr nullptr 0) nullptr 1) 7 (by decide) (by decide)

/-- C11, evaluated on the code: the tree built by `insert 5, 0` stores `0`
and `5`, and `getMin()` answers `5`; the tree built by `insert -5, 0` stores
`-5` and `0`, and `getMax()` answers `-5`.  In both the key `0` comes first in
post-order and is taken for the unset sentinel `T()`. -/
theorem getMin_getMax_miss_zero :
    insertAll nullptr [5, 0] = some (mk 5 (mk 0 nullptr nullptr 0) nullptr 1) ∧
      inOrderWalk (mk 5 (mk 0 nullptr nullptr 0) nullptr 1) = [0, 5] ∧
      postOrderWalk (mk 5 (mk 0 nullptr nullptr 0) nullptr 1) = [0, 5] ∧
      getMin (mk 5 (mk 0 nullptr nullptr 0) nullptr 1) = .ok 5 ∧
      insertAll nullptr [-5, 0] = some (mk (-5) nullptr (mk 0 nullptr nullptr 0) 1) ∧
      inOrderWalk (mk (-5) nullptr (mk 0 nullptr nullptr 0) 1) = [-5, 0] ∧
      postOrderWalk (mk (-5) nullptr (mk 0 nullptr nullptr 0) 1) = [0, -5] ∧
      getMax (mk (-5) nullptr (mk 0 nullptr nullptr 0) 1) = .ok (-5) :=
  ⟨by decide, by decide, by decide, rfl, by decide, by decide, by decide, rfl⟩

/-- C12, evaluated on the code: after `insert 2, 1, 4, 3, 5` and `remove 1`
the node `2` has the leaf `3` as right child and cached height `0`, not
`1 + max(-1, 0) = 1`; the root's cached height, which `getTreeHeight()`
returns, is `1`, while the longest path from the root to a leaf (`4 → 2 → 3`)
has length `2`. -/
theorem remove_breaks_cached_height :
    run nullptr [.insert 2, .insert 1, .insert 4, .insert 3, .insert 5, .remove 1]
        = mk 4 (mk 2 nullptr (mk 3 nullptr nullptr 0) 0) (mk 5 nullptr nullptr 0) 1 ∧
      nodeHeight (mk 2 nullptr (mk 3 nullptr nullptr 0) 0) = 0 ∧
      Max.max (nodeHeight nullptr) (nodeHeight (mk 3 nullptr nullptr 0)) + 1 = 1 ∧
      ¬ HeightOK (mk 4 (mk 2 nullptr (mk 3 nullptr nullptr 0) 0) (mk 5 nullptr nullptr 0) 1) ∧
      getTreeHeight (mk 4 (mk 2 nullptr (mk 3 nullptr nullptr 0) 0) (mk 5 nullptr nullptr 0) 1)
        = 1 ∧
      realHeight (mk 4 (mk 2 nullptr (mk 3 nullptr nullptr 0) 0) (mk 5 nullptr nullptr 0) 1)
        = 2 := by
  decide

/-- C13: on the empty tree `getMin()`, `getMax()` and `remove(x)` for every `x`
throw `std::out_of_range`, which is not `std::invalid_argument`, and `remove`
leaves the tree empty; on every non-empty tree `getMin()` and `getMax()` return
a key. -/
theorem empty_tree_errors :
    getMin nullptr = .error Error.outOfRange ∧ getMax nullptr = .error Error.outOfRange ∧
      (∀ x, remove nullptr x = (nullptr, some Error.outOfRange)) ∧
      Error.outOfRange ≠ Error.invalidArgument ∧
      ∀ k h l r, (∃ m, getMin (mk k l r h) = .ok m) ∧ (∃ m, getMax (mk k l r h) = .ok m) :=
  ⟨rfl, rfl, fun _ => rfl, by decide, fun _ _ _ _ => ⟨⟨_, rfl⟩, ⟨_, rfl⟩⟩⟩

/-- C15, evaluated on the code: `rightRotate` on the node `2` without left
child and with right child `4` (children `3` and `5`), all cached heights
correct, promotes `4` and stores height `0` in the old root `2`, whose children
are now `nullptr` and the leaf `3`, so `1 + max(-1, 0) = 1` was due; the new
root's height is `max(0, 0) + 1 = 1` as the claim says.  `leftRotate` on the
mirror image stores `1` in the old root. -/
theorem rightRotate_height_not_mirror :
    HeightOK (mk 2 nullptr (mk 4 (mk 3 nullptr nullptr 0) (mk 5 nullptr nullptr 0) 1) 2) ∧
      rightRotate (mk 2 nullptr (mk 4 (mk 3 nullptr nullptr 0) (mk 5 nullptr nullptr 0) 1) 2)
        = some (mk 4 (mk 2 nullptr (mk 3 nullptr nullptr 0) 0) (mk 5 nullptr nullptr 0) 1) ∧
      nodeHeight (mk 2 nullptr (mk 3 nullptr nullptr 0) 0)
        ≠ 1 + Max.max (nodeHeight nullptr) (nodeHeight (mk 3 nullptr nullptr 0)) ∧
      leftRotate (mk 4 (mk 2 (mk 1 nullptr nullptr 0) (mk 3 nullptr nullptr 0) 1) nullptr 2)
        = some (mk 2 (mk 1 nullptr nullptr 0) (mk 4 (mk 3 nullptr nullptr 0) nullptr 1) 2) ∧
      nodeHeight (mk 4 (mk 3 nullptr nullptr 0) nullptr 1)
        = 1 + Max.max (nodeHeight (mk 3 nullptr nullptr 0)) (nodeHeight nullptr) := by
  decide

/-! ## `getMin` and `getMax` away from the sentinel -/

theorem foldl_minStep_spec (xs : List Int) (a : Int) (ha : a ≠ 0) (hz : (0 : Int) ∉ xs) :
    xs.foldl minStep a ∈ a :: xs ∧ ∀ x ∈ a :: xs, xs.foldl minStep a ≤ x := by
  induction xs generalizing a with
  | nil => simp
  | cons y ys ih =>
    have hy : y ≠ 0 := fun h => hz (by simp [h])
    have hys : (0 : Int) ∉ ys := fun h => hz (List.mem_cons_of_mem _ h)
    have hstep : minStep a y = if y < a then y else a := by
      unfold minStep
      simp [ha]
    have hne : minStep a y ≠ 0 := by rw [hstep]; split <;> assumption
    obtain ⟨h1, h2⟩ := ih (minStep a y) hne hys
    simp only [List.foldl_cons]
    constructor
    · rcases List.mem_cons.mp h1 with h | h
      · rw [h, hstep]
        split
        · simp
        · simp
      · exact List.mem_cons_of_mem _ (List.mem_cons_of_mem _ h)
    · intro x hx
      have hm := h2 (minStep a y) (List.mem_cons_self _ _)
      have hle : minStep a y ≤ a ∧ minStep a y ≤ y := by
        rw [hstep]; split <;> constructor <;> omega
      rcases List.mem_cons.mp hx with hxa | hx
      · rw [hxa]; exact le_trans hm hle.1
      · rcases List.mem_cons.mp hx with hxy | hx
        · rw [hxy]; exact le_trans hm hle.2
        · exact h2 x (List.mem_cons_of_mem _ hx)

theorem foldl_maxStep_spec (xs : List Int) (a : Int) (ha : a ≠ 0) (hz : (0 : Int) ∉ xs) :
    xs.foldl maxStep a ∈ a :: xs ∧ ∀ x ∈ a :: xs, x ≤ xs.foldl maxStep a := by
  induction xs generalizing a with
  | nil => simp
  | cons y ys ih =>
    have hy : y ≠ 0 := fun h => hz (by simp [h])
    have hys : (0 : Int) ∉ ys := fun h => hz (List.mem_cons_of_mem _ h)
    have hstep : maxStep a y = if y > a then y else a := by
      unfold maxStep
      simp [ha]
    have hne : maxStep a y ≠ 0 := by rw [hstep]; split <;> assumption
    obtain ⟨h1, h2⟩ := ih (maxStep a y) hne hys
    simp only [List.foldl_cons]
    constructor
    · rcases List.mem_cons.mp h1 with h | h
      · rw [h, hstep]
        split
        · simp
        · simp
      · exact List.mem_cons_of_mem _ (List.mem_cons_of_mem _ h)
    · intro x hx
      have hm := h2 (maxStep a y) (List.mem_cons_self _ _)
      have hle : a ≤ maxStep a y ∧ y ≤ maxStep a y := by
        rw [hstep]; split <;> constructor <;> omega
      rcases List.mem_cons.mp hx with hxa | hx
      · rw [hxa]; exact le_trans hle.1 hm
      · rcases List.mem_cons.mp hx with hxy | hx
        · rw [hxy]; exact le_trans hle.2 hm
        · exact h2 x (List.mem_cons_of_mem _ hx)

theorem maxStep_zero (x : Int) : maxStep 0 x = x := by
  simp [maxStep]

/-- C19: on a non-empty tree none of whose keys is `0`, whatever its shape,
`getMin()` returns a key of `postOrderWalk()` that is below or equal to every
other one, and `getMax()` one that is above or equal to every other one. -/
theorem getMin_getMax_without_zero (t : Node) (ht : t ≠ nullptr)
    (hz : (0 : Int) ∉ postOrderWalk t) :
    ∃ lo hi, getMin t = .ok lo ∧ getMax t = .ok hi ∧
      lo ∈ postOrderWalk t ∧ hi ∈ postOrderWalk t ∧
      ∀ x ∈ postOrderWalk t, lo ≤ x ∧ x ≤ hi := by
  cases t with
  | nullptr => exact absurd rfl ht
  | mk k l r h =>
    refine ⟨_, _, rfl, rfl, ?_⟩
    generalize hxs : postOrderWalk (mk k l r h) = xs at hz ⊢
    cases xs with
    | nil => simp [postOrderWalk] at hxs
    | cons y ys =>
      have hy : y ≠ 0 := fun h => hz (by simp [h])
      have hys : (0 : Int) ∉ ys := fun h => hz (List.mem_cons_of_mem _ h)
      simp only [List.foldl_cons, minStep_zero, maxStep_zero]
      obtain ⟨a1, a2⟩ := foldl_minStep_spec ys y hy hys
      obtain ⟨b1, b2⟩ := foldl_maxStep_spec ys y hy hys
      exact ⟨a1, b1, fun x hx => ⟨a2 x hx, b2 x hx⟩⟩

/-- Witness for C19: the unbalanced chain `3 → -4 → 2`, with a negative and
two positive keys. -/
theorem getMin_getMax_without_zero_witness :
    ∃ lo hi, getMin (mk 3 (mk (-4) nullptr (mk 2 nullptr nullptr 0) 1) nullptr 2) = .ok lo ∧
      getMax (mk 3 (mk (-4) nullptr (mk 2 nullptr nullptr 0) 1) nullptr 2) = .ok hi ∧
      lo ∈ postOrderWalk (mk 3 (mk (-4) nullptr (mk 2 nullptr nullptr 0) 1) nullptr 2) ∧
      hi ∈ postOrderWalk (mk 3 (mk (-4) nullptr (mk 2 nullptr nullptr 0) 1) nullptr 2) ∧
      ∀ x ∈ postOrderWalk (mk 3 (mk (-4) nullptr (mk 2 nullptr nullptr 0) 1) nullptr 2),
        lo ≤ x ∧ x ≤ hi :=
  getMin_getMax_without_zero (mk 3 (mk (-4) nullptr (mk 2 nullptr nullptr 0) 1) nullptr 2)
    (by decide) (by decide)

/-- C14: for keys `a < b < c`, `insert(a)`, `insert(b)`, `insert(c)` on the
empty tree all return normally and leave exactly the tree with root `b`, left
leaf `a` and right leaf `c`, cached heights `0` on the leaves and `1` on the
root, so `getTreeHeight()` is `1`. -/
theorem insert_ascending_three (a b c : Int) (hab : a < b) (hbc : b < c) :
    insertAll nullptr [a, b, c]
        = some (mk b (mk a nullptr nullptr 0) (mk c nullptr nullptr 0) 1) ∧
      getTreeHeight (mk b (mk a nullptr nullptr 0) (mk c nullptr nullptr 0) 1) = 1 := by
  have hac : a < c := lt_trans hab hbc
  have h1 : insert nullptr a = (mk a nullptr nullptr 0, none) := by
    simp [insert, recursiveInsert, findFrom, find, postOrderWalk, balanceSlot, balance,
      rebalance, updateHeight, max]
  have h2 : insert (mk a nullptr nullptr 0) b
      = (mk a nullptr (mk b nullptr nullptr 0) 1, none) := by
    have n1 : ¬ b < a := by omega
    have n2 : ¬ a = b := by omega
    simp [insert, recursiveInsert, findFrom, find, postOrderWalk, balanceSlot, balance,
      rebalance, updateHeight, max, n1, n2, hab]
  have h3 : insert (mk a nullptr (mk b nullptr nullptr 0) 1) c
      = (mk b (mk a nullptr nullptr 0) (mk c nullptr nullptr 0) 1, none) := by
    have n1 : ¬ c < a := by omega
    have n2 : ¬ a = c := by omega
    have n3 : ¬ c < b := by omega
    have n4 : ¬ b = c := by omega
    simp [insert, recursiveInsert, findFrom, find, postOrderWalk, balanceSlot, balance,
      rebalance, updateHeight, max, rightRotate, n1, n2, n3, n4, hac, hbc]
  refine ⟨?_, rfl⟩
  simp only [insertAll, h1, h2, h3]

/-- Witness for C14: the spec's scenario `1, 2, 3`. -/
theorem insert_ascending_three_witness :
    insertAll nullptr [1, 2, 3]
        = some (mk 2 (mk 1 nullptr nullptr 0) (mk 3 nullptr nullptr 0) 1) ∧
      getTreeHeight (mk 2 (mk 1 nullptr nullptr 0) (mk 3 nullptr nullptr 0) 1) = 1 :=
  insert_ascending_three 1 2 3 (by decide) (by decide)

/-- C17: each of the four rotations, applied to a node whose promoted child
(and, for a double rotation, promoted grandchild) is present, returns a subtree
with the same in-order key sequence, so no key is gained or lost and a subtree
in BST order stays in BST order. -/
theorem rotations_keep_inOrderWalk (k h ck ch gk gh : Int) (a b c d : Node) :
    (∃ t', leftRotate (mk k (mk ck a b ch) c h) = some t' ∧
        inOrderWalk t' = inOrderWalk (mk k (mk ck a b ch) c h) ∧
        (BSTOrder (mk k (mk ck a b ch) c h) → BSTOrder t')) ∧
      (∃ t', rightRotate (mk k a (mk ck b c ch) h) = some t' ∧
        inOrderWalk t' = inOrderWalk (mk k a (mk ck b c ch) h) ∧
        (BSTOrder (mk k a (mk ck b c ch) h) → BSTOrder t')) ∧
      (∃ t', doubleLeftRotate (mk k (mk ck a (mk gk b c gh) ch) d h) = some t' ∧
        inOrderWalk t' = inOrderWalk (mk k (mk ck a (mk gk b c gh) ch) d h) ∧
        (BSTOrder (mk k (mk ck a (mk gk b c gh) ch) d h) → BSTOrder t')) ∧
      (∃ t', doubleRightRotate (mk k a (mk ck (mk gk b c gh) d ch) h) = some t' ∧
        inOrderWalk t' = inOrderWalk (mk k a (mk ck (mk gk b c gh) d ch) h) ∧
        (BSTOrder (mk k a (mk ck (mk gk b c gh) d ch) h) → BSTOrder t')) := by
  refine ⟨⟨_, rfl, ?_⟩, ⟨_, rfl, ?_⟩, ⟨_, rfl, ?_⟩, ⟨_, rfl, ?_⟩⟩
  · have e := leftRotate_inOrderWalk (t := mk k (mk ck a b ch) c h) rfl
    exact ⟨e, bstOrder_of_inOrderWalk_eq e⟩
  · have e := rightRotate_inOrderWalk (t := mk k a (mk ck b c ch) h) rfl
    exact ⟨e, bstOrder_of_inOrderWalk_eq e⟩
  · have e := doubleLeftRotate_inOrderWalk (t := mk k (mk ck a (mk gk b c gh) ch) d h) rfl
    exact ⟨e, bstOrder_of_inOrderWalk_eq e⟩
  · have e := doubleRightRotate_inOrderWalk (t := mk k a (mk ck (mk gk b c gh) d ch) h) rfl
    exact ⟨e, bstOrder_of_inOrderWalk_eq e⟩

/-! ## `balance` on the real heights -/

theorem realHeight_mk (k h : Int) (l r : Node) :
    realHeight (mk k l r h) = Max.max (realHeight l) (realHeight r) + 1 := rfl

theorem avl_real {t : Node} (h : AVL t) : nodeHeight t = realHeight t ∧ Balanced t :=
  ⟨nodeHeight_eq_realHeight ((avl_iff t).mp h).2, ((avl_iff t).mp h).1⟩

theorem balance_balanced {k h : Int} {l r : Node} (hl : AVL l) (hr : AVL r)
    (h1 : nodeHeight l ≤ nodeHeight r + 2) (h2 : nodeHeight r ≤ nodeHeight l + 2) :
    ∃ t', balance (mk k l r h) = some t' ∧ Balanced t' := by
  have gl := avl_nodeHeight_ge hl
  have gr := avl_nodeHeight_ge hr
  obtain ⟨el, bl⟩ := avl_real hl
  obtain ⟨er, br⟩ := avl_real hr
  simp only [balance, rebalance]
  split_ifs with c1 c2
  · cases l with
    | nullptr => simp only [nodeHeight_nullptr] at c1; omega
    | mk lk ll lr lh =>
      obtain ⟨e1, b1, b2, all, alr⟩ := hl
      have gll := avl_nodeHeight_ge all
      have glr := avl_nodeHeight_ge alr
      obtain ⟨ell, bll⟩ := avl_real all
      obtain ⟨elr, blr⟩ := avl_real alr
      simp only [nodeHeight_mk] at c1 h1 h2 gl
      simp only
      split_ifs with c3
      · simp only [leftRotate, Option.map_some', updateHeight]
        refine ⟨_, rfl, ?_, ?_, bll, ⟨?_, ?_, blr, br⟩⟩ <;>
          (try simp only [realHeight_mk]) <;> omega
      · cases lr with
        | nullptr => simp only [nodeHeight_nullptr] at c3; omega
        | mk xk xl xr xh =>
          obtain ⟨e2, b3, b4, axl, axr⟩ := alr
          have gxl := avl_nodeHeight_ge axl
          have gxr := avl_nodeHeight_ge axr
          obtain ⟨exl, bxl⟩ := avl_real axl
          obtain ⟨exr, bxr⟩ := avl_real axr
          simp only [nodeHeight_mk] at c3 e1 b1 b2 glr
          simp only [doubleLeftRotate, rightRotate, leftRotate, Option.some_bind,
            Option.map_some', updateHeight]
          refine ⟨_, rfl, ?_, ?_, ⟨?_, ?_, bll, bxl⟩, ⟨?_, ?_, bxr, br⟩⟩ <;>
            (try simp only [realHeight_mk]) <;> omega
  · cases r with
    | nullptr => simp only [nodeHeight_nullptr] at c2; omega
    | mk rk rl rr rh =>
      obtain ⟨e1, b1, b2, arl, arr⟩ := hr
      have grl := avl_nodeHeight_ge arl
      have grr := avl_nodeHeight_ge arr
      obtain ⟨erl, brl⟩ := avl_real arl
      obtain ⟨err, brr⟩ := avl_real arr
      simp only [nodeHeight_mk] at c1 c2 h1 h2 gr
      simp only
      split_ifs with c3
      · simp only [rightRotate, Option.map_some', updateHeight]
        refine ⟨_, rfl, ?_, ?_, ⟨?_, ?_, bl, brl⟩, brr⟩ <;>
          (try simp only [realHeight_mk]) <;> omega
      · cases rl with
        | nullptr => simp only [nodeHeight_nullptr] at c3; omega
        | mk xk xl xr xh =>
          obtain ⟨e2, b3, b4, axl, axr⟩ := arl
          have gxl := avl_nodeHeight_ge axl
          have gxr := avl_nodeHeight_ge axr
          obtain ⟨exl, bxl⟩ := avl_real axl
          obtain ⟨exr, bxr⟩ := avl_real axr
          simp only [nodeHeight_mk] at c3 e1 b1 b2 grl
          simp only [doubleRightRotate, rightRotate, leftRotate, Option.some_bind,
            Option.map_some', updateHeight]
          refine ⟨_, rfl, ?_, ?_, ⟨?_, ?_, bl, bxl⟩, ⟨?_, ?_, bxr, brr⟩⟩ <;>
            (try simp only [realHeight_mk]) <;> omega
  · simp only [Option.map_some', updateHeight]
    exact ⟨_, rfl, by omega, by omega, bl, br⟩

/-- C16: when the left and the right subtree of a node each satisfy AVL
balance and height correctness and their heights differ by at most 2,
`balance` on the node's slot returns a subtree in which the real heights of the
two children differ by at most 1 at every node (and which has the same in-order
key sequence). -/
theorem balance_restores_balance (k h : Int) (l r : Node) (hbl : Balanced l) (hhl : HeightOK l)
    (hbr : Balanced r) (hhr : HeightOK r) (h1 : realHeight l ≤ realHeight r + 2)
    (h2 : realHeight r ≤ realHeight l + 2) :
    ∃ t', balance (mk k l r h) = some t' ∧ Balanced t' ∧
      inOrderWalk t' = inOrderWalk (mk k l r h) := by
  rw [← nodeHeight_eq_realHeight hhl, ← nodeHeight_eq_realHeight hhr] at h1 h2
  obtain ⟨t', hb, hbal⟩ := balance_balanced (k := k) (h := h) ((avl_iff l).mpr ⟨hbl, hhl⟩)
    ((avl_iff r).mpr ⟨hbr, hhr⟩) h1 h2
  exact ⟨t', hb, hbal, balance_inOrderWalk hb⟩

/-- Witness for C16: the slot met by `remove(1)` after `insert 2, 1, 4, 3, 5`,
node `2` without left child and with right child `4` whose children `3` and
`5` have equal heights. -/
theorem balance_restores_balance_witness :
    ∃ t', balance (mk 2 nullptr (mk 4 (mk 3 nullptr nullptr 0) (mk 5 nullptr nullptr 0) 1) 2)
        = some t' ∧ Balanced t' ∧
      inOrderWalk t' = inOrderWalk
        (mk 2 nullptr (mk 4 (mk 3 nullptr nullptr 0) (mk 5 nullptr nullptr 0) 1) 2) :=
  balance_restores_balance 2 2 nullptr (mk 4 (mk 3 nullptr nullptr 0) (mk 5 nullptr nullptr 0) 1)
    (by decide) (by decide) (by decide) (by decide) (by decide) (by decide)

/-! ## Height against number of nodes -/

theorem avl_fib {t : Node} (h : AVL t) :
    ∃ n : Nat, nodeHeight t = (n : Int) - 1 ∧ Nat.fib (n + 2) ≤ size t + 1 := by
  induction t with
  | nullptr => exact ⟨0, by simp, by simp [size]⟩
  | mk k l r hh ihl ihr =>
    obtain ⟨e1, b1, b2, al, ar⟩ := h
    obtain ⟨nl, el, fl⟩ := ihl al
    obtain ⟨nr, er, fr⟩ := ihr ar
    simp only [nodeHeight_mk, size]
    rcases le_total nl nr with hle | hle
    · refine ⟨nr + 1, by omega, ?_⟩
      have hm : Nat.fib (nr + 1) ≤ Nat.fib (nl + 2) := Nat.fib_mono (by omega)
      have hs : Nat.fib (nr + 1 + 2) = Nat.fib (nr + 1) + Nat.fib (nr + 2) := Nat.fib_add_two
      omega
    · refine ⟨nl + 1, by omega, ?_⟩
      have hm : Nat.fib (nl + 1) ≤ Nat.fib (nr + 2) := Nat.fib_mono (by omega)
      have hs : Nat.fib (nl + 1 + 2) = Nat.fib (nl + 1) + Nat.fib (nl + 2) := Nat.fib_add_two
      omega

theorem insert_avl_of_ok {t t' : Node} {k : Int} (ha : AVL t) (h : insert t k = (t', none)) :
    AVL t' := by
  cases hf : findFrom [] t k with
  | true =>
    have := recursiveInsert_found hf
    rw [show recursiveInsert [] k t = insert t k from rfl, h] at this
    cases this
  | false =>
    obtain ⟨u, hu, hav, -⟩ := recursiveInsert_avl hf ha
    rw [show recursiveInsert [] k t = insert t k from rfl, h] at hu
    cases hu
    exact hav

theorem insertAll_avl (ks : List Int) (root t : Node) (ha : AVL root)
    (h : insertAll root ks = some t) : AVL t := by
  induction ks generalizing root with
  | nil =>
    simp only [insertAll, Option.some.injEq] at h
    subst h
    exact ha
  | cons k ks ih =>
    simp only [insertAll] at h
    split at h
    · rename_i root' hins
      exact ih root' (insert_avl_of_ok ha hins) h
    · cases h

theorem realHeight_lt_size (t : Node) : realHeight t + 1 ≤ size t := by
  induction t with
  | nullptr => simp [realHeight, size]
  | mk k l r h ihl ihr =>
    simp only [realHeight_mk, size]
    push_cast
    omega

theorem length_le_of_int_range (ks : List Int) (hn : ks.Nodup)
    (hr : ∀ k ∈ ks, -2 ^ 31 ≤ k ∧ k < 2 ^ 31) : ks.length ≤ 2 ^ 32 := by
  have hsub : ks.toFinset ⊆ Finset.Ico (-2 ^ 31 : Int) (2 ^ 31) := by
    intro x hx
    rw [List.mem_toFinset] at hx
    exact Finset.mem_Ico.mpr (hr x hx)
  have hc := Finset.card_le_card hsub
  rw [List.toFinset_card_of_nodup hn, Int.card_Ico] at hc
  have : ((2 : Int) ^ 31 - -2 ^ 31).toNat = 2 ^ 32 := by
    norm_num
    rfl
  omega

/-- C18: when `n` inserts into the empty tree all return normally and `h` is
what `getTreeHeight()` returns on the result (`h = -1` when `n = 0`), then
`fib (h + 3) ≤ n + 1`, that is `n ≥ fib (h + 3) - 1`, with
`fib 1 = fib 2 = 1`; the same bound holds for the real height of the tree;
`getTreeHeight()` is the real height modulo `2 ^ 64` (the cast to
`std::size_t`), so `h` is the real height as soon as `n < 2 ^ 64`, in
particular when every key is in the range of `int`. -/
theorem height_logarithmic (ks : List Int) (t : Node) (h : insertAll nullptr ks = some t) :
    Nat.fib (reportedHeight ks.length t + 3).toNat ≤ ks.length + 1 ∧
      Nat.fib (realHeight t + 3).toNat ≤ ks.length + 1 ∧
      (ks.length ≠ 0 → (getTreeHeight t : Int) = realHeight t % 2 ^ 64) ∧
      (ks.length < 2 ^ 64 → reportedHeight ks.length t = realHeight t) ∧
      ((∀ k ∈ ks, -2 ^ 31 ≤ k ∧ k < 2 ^ 31) → reportedHeight ks.length t = realHeight t) := by
  have hav := insertAll_avl ks nullptr t trivial h
  obtain ⟨hbst, hperm⟩ := insertAll_bst ks nullptr t trivial h
  have hlen : size t = ks.length := by
    have := hperm.length_eq
    simpa [length_inOrderWalk, inOrderWalk] using this
  have hnd : ks.Nodup := by
    have := bstOrder_nodup hbst
    have hp : (inOrderWalk t).Perm ks := by simpa [inOrderWalk] using hperm
    exact hp.nodup_iff.mp this
  obtain ⟨n, hn, hfib⟩ := avl_fib hav
  have hreal := (avl_real hav).1
  have hsz := realHeight_lt_size t
  have hmod : ks.length ≠ 0 → (getTreeHeight t : Int) = realHeight t % 2 ^ 64 := by
    intro h0
    cases t with
    | nullptr => simp only [size] at hlen; omega
    | mk k l r hh =>
      simp only [nodeHeight_mk] at hreal
      simp only [getTreeHeight, ← hreal]
      exact Int.toNat_of_nonneg (Int.emod_nonneg _ (by norm_num))
  have hrep0 : ks.length = 0 → reportedHeight ks.length t = realHeight t := by
    intro h0
    cases t with
    | nullptr => simp [reportedHeight, h0, realHeight]
    | mk k l r hh => simp only [size] at hlen; omega
  have hnonneg : ks.length ≠ 0 → 0 ≤ realHeight t := by
    intro h0
    cases t with
    | nullptr => simp only [size] at hlen; omega
    | mk k l r hh =>
      have := avl_nodeHeight_ge hav.2.2.2.1
      have := hav.1
      simp only [nodeHeight_mk] at hreal
      omega
  have hexact : ks.length < 2 ^ 64 → reportedHeight ks.length t = realHeight t := by
    intro hlt
    by_cases h0 : ks.length = 0
    · exact hrep0 h0
    · have h1 := hmod h0
      have h2 := hnonneg h0
      simp only [reportedHeight, h0, if_false, h1]
      have h3 : realHeight t < 2 ^ 64 := by
        have : (size t : Int) < 2 ^ 64 := by rw [hlen]; exact_mod_cast hlt
        omega
      exact Int.emod_eq_of_lt h2 h3
  have hfreal : Nat.fib (realHeight t + 3).toNat ≤ ks.length + 1 := by
    have : (realHeight t + 3).toNat = n + 2 := by omega
    rw [this]; omega
  refine ⟨?_, hfreal, hmod, hexact, fun hr => hexact ?_⟩
  · by_cases h0 : ks.length = 0
    · simp [reportedHeight, h0]
    · have h1 := hmod h0
      have h2 := hnonneg h0
      simp only [reportedHeight, h0, if_false, h1]
      have h3 : (realHeight t % 2 ^ 64 + 3).toNat ≤ (realHeight t + 3).toNat := by omega
      exact le_trans (Nat.fib_mono h3) hfreal
  · have := length_le_of_int_range ks hnd hr
    have h32 : (2 : Nat) ^ 32 < 2 ^ 64 := by norm_num
    omega

/-- Witness for C18: four ascending inserts give real height `2`, which
`getTreeHeight()` returns, and `fib 5 = 5 = 4 + 1`. -/
theorem height_logarithmic_witness :
    Nat.fib (reportedHeight [1, 2, 3, 4].length (mk 2 (mk 1 nullptr nullptr 0)
        (mk 3 nullptr (mk 4 nullptr nullptr 0) 1) 2) + 3).toNat ≤ [1, 2, 3, 4].length + 1 ∧
      Nat.fib (realHeight (mk 2 (mk 1 nullptr nullptr 0)
        (mk 3 nullptr (mk 4 nullptr nullptr 0) 1) 2) + 3).toNat ≤ [1, 2, 3, 4].length + 1 ∧
      ([1, 2, 3, 4].length ≠ 0 → (getTreeHeight (mk 2 (mk 1 nullptr nullptr 0)
        (mk 3 nullptr (mk 4 nullptr nullptr 0) 1) 2) : Int)
          = realHeight (mk 2 (mk 1 nullptr nullptr 0)
            (mk 3 nullptr (mk 4 nullptr nullptr 0) 1) 2) % 2 ^ 64) ∧
      ([1, 2, 3, 4].length < 2 ^ 64 → reportedHeight [1, 2, 3, 4].length
        (mk 2 (mk 1 nullptr nullptr 0) (mk 3 nullptr (mk 4 nullptr nullptr 0) 1) 2)
          = realHeight (mk 2 (mk 1 nullptr nullptr 0)
            (mk 3 nullptr (mk 4 nullptr nullptr 0) 1) 2)) ∧
      ((∀ k ∈ [1, 2, 3, 4], -2 ^ 31 ≤ k ∧ k < 2 ^ 31) → reportedHeight [1, 2, 3, 4].length
        (mk 2 (mk 1 nullptr nullptr 0) (mk 3 nullptr (mk 4 nullptr nullptr 0) 1) 2)
          = realHeight (mk 2 (mk 1 nullptr nullptr 0)
            (mk 3 nullptr (mk 4 nullptr nullptr 0) 1) 2)) :=
  height_logarithmic [1, 2, 3, 4]
    (mk 2 (mk 1 nullptr nullptr 0) (mk 3 nullptr (mk 4 nullptr nullptr 0) 1) 2) (by decide)

theorem rebalance_isSome {k h : Int} {l r : Node} (hl : HeightsNonneg l)
    (hr : HeightsNonneg r) : ∃ t', rebalance (mk k l r h) = some t' := by
  have h1 := nodeHeight_ge_of_nonneg hl
  have h2 := nodeHeight_ge_of_nonneg hr
  simp only [rebalance]
  split_ifs with c1 c2
  · cases l with
    | nullptr => simp only [nodeHeight_nullptr] at c1; omega
    | mk lk ll lr lh =>
      simp only
      split_ifs with c3
      · exact ⟨_, rfl⟩
      · cases lr with
        | nullptr =>
          have := nodeHeight_ge_of_nonneg hl.2.1
          simp only [nodeHeight_nullptr] at c3; omega
        | mk xk xl xr xh => exact ⟨_, rfl⟩
  · cases r with
    | nullptr => simp only [nodeHeight_nullptr] at c2; omega
    | mk rk rl rr rh =>
      simp only
      split_ifs with c3
      · exact ⟨_, rfl⟩
      · cases rl with
        | nullptr =>
          have := nodeHeight_ge_of_nonneg hr.2.2
          simp only [nodeHeight_nullptr] at c3; omega
        | mk xk xl xr xh => exact ⟨_, rfl⟩
  · exact ⟨_, rfl⟩

/-- C20: `balance` is total on every slot the class can hand to it, whatever
the cached heights say about balance or height correctness (the only thing
used is that no cached height below the slot is negative, which holds of every
height the source stores; the slot's own cached height is arbitrary).  When it
selects a left rotation the left child is present, and when that rotation is
the double one the left child's right child is present; likewise on the right;
so `balance` returns a subtree, with the same keys in order.  On an absent slot
it returns the absent slot. -/
theorem balance_total (k h : Int) (l r : Node) (hl : HeightsNonneg l) (hr : HeightsNonneg r) :
    (∃ t', balance (mk k l r h) = some t' ∧
        inOrderWalk t' = inOrderWalk (mk k l r h)) ∧
      (nodeHeight l - nodeHeight r > 1 →
        ∃ lk ll lr lh, l = mk lk ll lr lh ∧
          (¬ nodeHeight ll ≥ nodeHeight lr → lr ≠ nullptr)) ∧
      (¬ nodeHeight l - nodeHeight r > 1 → nodeHeight r - nodeHeight l > 1 →
        ∃ rk rl rr rh, r = mk rk rl rr rh ∧
          (¬ nodeHeight rr ≥ nodeHeight rl → rl ≠ nullptr)) ∧
      balance nullptr = some nullptr := by
  have gl := nodeHeight_ge_of_nonneg hl
  have gr := nodeHeight_ge_of_nonneg hr
  refine ⟨?_, ?_, ?_, rfl⟩
  · obtain ⟨u, hu'⟩ := rebalance_isSome (k := k) (h := h) hl hr
    have hb : balance (mk k l r h) = some (updateHeight u) := by simp [balance, hu']
    exact ⟨_, hb, balance_inOrderWalk hb⟩
  · intro c1
    cases l with
    | nullptr => simp only [nodeHeight_nullptr] at c1; omega
    | mk lk ll lr lh =>
      refine ⟨lk, ll, lr, lh, rfl, fun c3 => ?_⟩
      have := nodeHeight_ge_of_nonneg hl.2.1
      rintro rfl
      simp only [nodeHeight_nullptr] at c3
      omega
  · intro _ c2
    cases r with
    | nullptr => simp only [nodeHeight_nullptr] at c2; omega
    | mk rk rl rr rh =>
      refine ⟨rk, rl, rr, rh, rfl, fun c3 => ?_⟩
      have := nodeHeight_ge_of_nonneg hr.2.2
      rintro rfl
      simp only [nodeHeight_nullptr] at c3
      omega

/-- Witness for C20: cached heights that are far from the real ones, a left
child claiming height `5` whose children claim `0` and `4`; `balance` selects
the double left rotation and the promoted grandchild `6` is present. -/
theorem balance_total_witness :
    (∃ t', balance (mk 9 (mk 4 (mk 2 nullptr nullptr 0) (mk 6 nullptr nullptr 4) 5)
          nullptr 7) = some t' ∧
        inOrderWalk t' = inOrderWalk (mk 9 (mk 4 (mk 2 nullptr nullptr 0)
          (mk 6 nullptr nullptr 4) 5) nullptr 7)) ∧
      (nodeHeight (mk 4 (mk 2 nullptr nullptr 0) (mk 6 nullptr nullptr 4) 5)
          - nodeHeight nullptr > 1 →
        ∃ lk ll lr lh, mk 4 (mk 2 nullptr nullptr 0) (mk 6 nullptr nullptr 4) 5 = mk lk ll lr lh ∧
          (¬ nodeHeight ll ≥ nodeHeight lr → lr ≠ nullptr)) ∧
      (¬ nodeHeight (mk 4 (mk 2 nullptr nullptr 0) (mk 6 nullptr nullptr 4) 5)
          - nodeHeight nullptr > 1 →
        nodeHeight nullptr
          - nodeHeight (mk 4 (mk 2 nullptr nullptr 0) (mk 6 nullptr nullptr 4) 5) > 1 →
        ∃ rk rl rr rh, nullptr = mk rk rl rr rh ∧
          (¬ nodeHeight rr ≥ nodeHeight rl → rl ≠ nullptr)) ∧
      balance nullptr = some nullptr :=
  balance_total 9 7 (mk 4 (mk 2 nullptr nullptr 0) (mk 6 nullptr nullptr 4) 5) nullptr
    (by decide) (by decide)

end AVLTree
